import Mathlib

/-!
Verification of the startup-trends agent pipeline (`src/startup_agents.py`)
against its natural-language specification.

The Python source is shallowly embedded: pure functions become Lean
functions, SQLite tables become lists of rows, and Python/SQLite library
primitives (`str.strip`, `str.lower`, SQL `LIKE`, `json.loads`/`dumps`,
`datetime.fromisoformat`) are modelled explicitly next to their uses.
Cryptographic digests (`md5`, `sha256`) are modelled as injective
functions, i.e. by the digested text itself.
-/

namespace StartupAgents

/-! ### Character-level models of Python / SQLite string primitives -/

/-- Whitespace stripped by Python `str.strip()` (the ASCII subset). -/
def isPyWs (c : Char) : Bool :=
  c = ' ' || c = '\t' || c = '\n' || c = '\r' || c = '\x0b' || c = '\x0c'

/-- Python `str.strip()` on a character list. -/
def pyStripChars (cs : List Char) : List Char :=
  ((cs.dropWhile isPyWs).reverse.dropWhile isPyWs).reverse

/-- Python `str.strip()`. -/
def pyStrip (s : String) : String := ⟨pyStripChars s.data⟩

/-- ASCII-only lower-casing of one character, as used by SQLite `LIKE`. -/
def asciiLower (c : Char) : Char :=
  if 'A' ≤ c ∧ c ≤ 'Z' then Char.ofNat (c.toNat + 32) else c

/-- Lower-casing for Python `str.lower()`, modelled on the alphabets the
program actually uses: ASCII plus the Cyrillic block А..Я and Ё. -/
def pyLowerChar (c : Char) : Char :=
  if 'A' ≤ c ∧ c ≤ 'Z' then Char.ofNat (c.toNat + 32)
  else if 'А' ≤ c ∧ c ≤ 'Я' then Char.ofNat (c.toNat + 32)
  else if c = 'Ё' then 'ё'
  else c

/-- Python `str.lower()` (over the modelled alphabets). -/
def pyLower (s : String) : String := ⟨s.data.map pyLowerChar⟩

/-- Upper-casing of one character (ASCII plus Cyrillic а..я and ё),
for the model of Python `str.capitalize()`. -/
def pyUpperChar (c : Char) : Char :=
  if 'a' ≤ c ∧ c ≤ 'z' then Char.ofNat (c.toNat - 32)
  else if 'а' ≤ c ∧ c ≤ 'я' then Char.ofNat (c.toNat - 32)
  else if c = 'ё' then 'Ё'
  else c

/-- Python `str.capitalize()`: first character upper-cased, the rest
lower-cased. -/
def pyCapitalize (s : String) : String :=
  match s.data.map pyLowerChar with
  | [] => ""
  | c :: cs => ⟨pyUpperChar c :: cs⟩

/-- Exact prefix test on character lists. -/
def startsWithChars : List Char → List Char → Bool
  | [], _ => true
  | _ :: _, [] => false
  | k :: ks, c :: cs => k = c && startsWithChars ks cs

/-- Exact (case-sensitive) substring test on character lists, modelling
Python `in` on strings. -/
def containsChars (needle : List Char) : List Char → Bool
  | [] => startsWithChars needle []
  | c :: cs => startsWithChars needle (c :: cs) || containsChars needle cs

/-- ASCII-case-insensitive prefix test. -/
def startsWithCI : List Char → List Char → Bool
  | [], _ => true
  | _ :: _, [] => false
  | k :: ks, c :: cs => asciiLower k = asciiLower c && startsWithCI ks cs

/-- ASCII-case-insensitive substring test. -/
def containsCI (needle : List Char) : List Char → Bool
  | [] => startsWithCI needle []
  | c :: cs => startsWithCI needle (c :: cs) || containsCI needle cs

/-- Executable lexicographic `≤` on character lists (codepoint order),
the order SQLite's BINARY collation and Python's `sorted` give to the
UTF-8 strings involved. -/
def listLeChars : List Char → List Char → Bool
  | [], _ => true
  | _ :: _, [] => false
  | a :: as, b :: bs =>
    if a < b then true
    else if b < a then false
    else listLeChars as bs

/-- Executable lexicographic `≤` on strings. -/
def strLe (a b : String) : Bool := listLeChars a.data b.data

/-- SQLite `LIKE` pattern matching, fuel-based so that it is structural:
`%` matches any run, `_` any single character, and plain characters
compare after ASCII case folding.  Every recursive call shrinks
`pattern length + string length`, so the wrapper's fuel never runs out. -/
def likeMatchFuel : Nat → List Char → List Char → Bool
  | 0, _, _ => false
  | _ + 1, [], [] => true
  | _ + 1, [], _ :: _ => false
  | fuel + 1, '%' :: ps, s =>
    likeMatchFuel fuel ps s ||
      (match s with
       | [] => false
       | _ :: s' => likeMatchFuel fuel ('%' :: ps) s')
  | fuel + 1, '_' :: ps, s =>
    (match s with
     | [] => false
     | _ :: s' => likeMatchFuel fuel ps s')
  | _ + 1, _ :: _, [] => false
  | fuel + 1, p :: ps, c :: s' =>
    (asciiLower p == asciiLower c) && likeMatchFuel fuel ps s'

/-- SQLite `LIKE`. -/
def likeMatch (p s : List Char) : Bool :=
  likeMatchFuel (p.length + s.length + 1) p s

/-! ### `domain_of` (startup_agents.py, lines 70–72)

`re.match(r"^https?://([^/]+)", url.strip())`: after stripping, the URL
must begin with `http://` or `https://` followed by at least one
character other than `/`; the captured group is the maximal run of
non-`/` characters. -/

/-- `domain_of(url)` from the source. -/
def domainOf (url : String) : String :=
  let t := pyStripChars url.data
  if startsWithChars "http://".data t then
    let host := (t.drop 7).takeWhile (· ≠ '/')
    if host.isEmpty then "unknown" else ⟨host⟩
  else if startsWithChars "https://".data t then
    let host := (t.drop 8).takeWhile (· ≠ '/')
    if host.isEmpty then "unknown" else ⟨host⟩
  else "unknown"

/-- Spec-side predicate for claim C10: the string begins with `http://`
or `https://` followed by a non-empty host (no stripping). -/
def schemeHostShape (s : String) : Bool :=
  (startsWithChars "http://".data s.data
      && !((s.data.drop 7).takeWhile (· ≠ '/')).isEmpty)
    || (startsWithChars "https://".data s.data
      && !((s.data.drop 8).takeWhile (· ≠ '/')).isEmpty)

/-! ### Evidence items and the evidence policy
(`RetrievalSynthesisAgent._evidence_ok`, lines 292–295) -/

/-- One element of the snippet list built by
`RetrievalSynthesisAgent._search` (url/title/date/text dict). -/
structure EvidenceItem where
  url : String
  title : String
  date : String
  text : String
deriving Repr, DecidableEq

/-- Insertion into a `≤`-sorted list of strings (for the model of
Python `sorted`). -/
def insertSorted (s : String) : List String → List String
  | [] => [s]
  | t :: ts => if strLe s t then s :: t :: ts else t :: insertSorted s ts

/-- Python `sorted` on strings, via insertion sort. -/
def sortStrings (l : List String) : List String := l.foldr insertSorted []

/-- `sorted({domain_of(i["url"]) for i in items})`: the set of source
domains, sorted. -/
def evidenceDomains (items : List EvidenceItem) : List String :=
  sortStrings (items.map (fun i => domainOf i.url)).dedup

/-- `RetrievalSynthesisAgent._evidence_ok`: the gate passes iff there are
at least two items (relaxed mode, `DEMO_EVIDENCE_RELAX`) or at least two
distinct source domains (standard mode). -/
def evidenceOk (relax : Bool) (items : List EvidenceItem) : Bool × List String :=
  let uniq := evidenceDomains items
  (if relax then decide (2 ≤ items.length) else decide (2 ≤ uniq.length), uniq)

/-! ### Calendar dates and `Parser._normalize_date` (lines 163–168)

`datetime.fromisoformat(dt_str[:10]).date().isoformat()` with a fallback
to the current date.  The stdlib parser is modelled restricted to the
extended `YYYY-MM-DD` calendar form with Python's `date` bounds
(year 1..9999) and real calendar day counts. -/

/-- Decimal digits of a natural number (fuel-based; `natCharsAux fuel n`
is correct whenever `n < fuel`). -/
def natCharsAux : Nat → Nat → List Char
  | 0, _ => []
  | fuel + 1, n =>
    if n < 10 then [Nat.digitChar n]
    else natCharsAux fuel (n / 10) ++ [Nat.digitChar (n % 10)]

/-- Decimal digits of a natural number. -/
def natChars (n : Nat) : List Char := natCharsAux (n + 1) n

/-- Zero-padding on the left to width `w`. -/
def pad (w : Nat) (cs : List Char) : List Char :=
  List.replicate (w - cs.length) '0' ++ cs

/-- A calendar date as Python's `datetime.date` holds it. -/
structure CalDate where
  year : Nat
  month : Nat
  day : Nat
deriving Repr, DecidableEq

/-- Gregorian leap year. -/
def isLeap (y : Nat) : Bool := (y % 4 == 0 && y % 100 != 0) || y % 400 == 0

/-- Days in a month of a given year. -/
def daysInMonth (y m : Nat) : Nat :=
  if m = 2 then (if isLeap y then 29 else 28)
  else if m = 4 ∨ m = 6 ∨ m = 9 ∨ m = 11 then 30
  else 31

/-- Validity of a `CalDate` under Python's `datetime.date` constraints. -/
def validDate (d : CalDate) : Bool :=
  decide (1 ≤ d.year) && decide (d.year ≤ 9999)
    && decide (1 ≤ d.month) && decide (d.month ≤ 12)
    && decide (1 ≤ d.day) && decide (d.day ≤ daysInMonth d.year d.month)

/-- `date.isoformat()`: `YYYY-MM-DD` with zero padding. -/
def isoOfDate (d : CalDate) : String :=
  ⟨pad 4 (natChars d.year) ++ '-' :: (pad 2 (natChars d.month) ++ '-' :: pad 2 (natChars d.day))⟩

/-- Numeric value of a decimal digit character. -/
def digitVal (c : Char) : Nat := c.toNat - 48

/-- The calendar date spelt by eight digit characters `YYYY MM DD`. -/
def dateFromDigits (y1 y2 y3 y4 m1 m2 d1 d2 : Char) : CalDate :=
  ⟨((digitVal y1 * 10 + digitVal y2) * 10 + digitVal y3) * 10 + digitVal y4,
    digitVal m1 * 10 + digitVal m2,
    digitVal d1 * 10 + digitVal d2⟩

/-- The `^\d{4}-\d{2}-\d{2}$` shape check used by `ValidatorOutAgent`
on source dates. -/
def dateShapeOk (s : String) : Bool :=
  match s.data with
  | [a, b, c, d, e, f, g, h, i, j] =>
    a.isDigit && b.isDigit && c.isDigit && d.isDigit && (e == '-')
      && f.isDigit && g.isDigit && (h == '-') && i.isDigit && j.isDigit
  | _ => false

/-! ### Date arithmetic for `now_utc_date() - timedelta(days=days)`
(Howard Hinnant's civil-calendar algorithms, used only computationally). -/

/-- Day number of a civil date (days since 1970-01-01). -/
def daysFromCivil (y m d : Int) : Int :=
  let y' := if m ≤ 2 then y - 1 else y
  let era := (if 0 ≤ y' then y' else y' - 399) / 400
  let yoe := y' - era * 400
  let mp := if 2 < m then m - 3 else m + 9
  let doy := (153 * mp + 2) / 5 + d - 1
  let doe := yoe * 365 + yoe / 4 - yoe / 100 + doy
  era * 146097 + doe - 719468

/-- Civil date of a day number. -/
def civilFromDays (z0 : Int) : CalDate :=
  let z := z0 + 719468
  let era := (if 0 ≤ z then z else z - 146096) / 146097
  let doe := z - era * 146097
  let yoe := (doe - doe / 1460 + doe / 36524 - doe / 146096) / 365
  let y := yoe + era * 400
  let doy := doe - (365 * yoe + yoe / 4 - yoe / 100)
  let mp := (5 * doy + 2) / 153
  let d := doy - (153 * mp + 2) / 5 + 1
  let m := if mp < 10 then mp + 3 else mp - 9
  ⟨(if m ≤ 2 then y + 1 else y).toNat, m.toNat, d.toNat⟩

/-- `today - timedelta(days=n)`. -/
def dateSubDays (d : CalDate) (n : Nat) : CalDate :=
  civilFromDays (daysFromCivil d.year d.month d.day - n)

/-! ### `datetime.fromisoformat` on a ten-character slice
Python ≥ 3.11 (the version the source targets) accepts, besides the
extended `YYYY-MM-DD` calendar form, the basic `YYYYMMDD` form and the
ISO week forms `YYYY-Www`, `YYYY-Www-D`, `YYYYWww`, `YYYYWwwD`; no other
form fits in the ten characters `dt_str[:10]` keeps. -/

/-- ISO weekday (Monday = 1 … Sunday = 7) of a day number; day 0 is
1970-01-01, a Thursday. -/
def isoWeekday (z : Int) : Int := (z + 3) % 7 + 1

/-- Number of ISO weeks in a year: 53 when January 1 falls on a
Thursday, or on a Wednesday of a leap year; 52 otherwise (the rule
CPython's `iso_to_ymd` checks before converting a week date). -/
def isoWeeksInYear (y : Nat) : Nat :=
  if isoWeekday (daysFromCivil y 1 1) = 4
      ∨ (isoWeekday (daysFromCivil y 1 1) = 3 ∧ isLeap y) then 53 else 52

/-- The calendar date of ISO year `y`, week `w`, weekday `d`
(Monday = 1), counted from the Monday of the week containing
January 4. -/
def isoWeekDate (y w d : Nat) : CalDate :=
  civilFromDays (daysFromCivil y 1 4 - (isoWeekday (daysFromCivil y 1 4) - 1)
    + 7 * ((w : Int) - 1) + ((d : Int) - 1))

/-- Acceptance of a numeric ISO week date, as `fromisoformat` applies
it: a positive year (four digits, so at most 9999), a week within the
year's ISO week count, a weekday 1–7, and a resulting date inside
`datetime.date`'s year range. -/
def weekDateOf (y w d : Nat) : Option CalDate :=
  if 1 ≤ y ∧ 1 ≤ w ∧ w ≤ isoWeeksInYear y ∧ 1 ≤ d ∧ d ≤ 7 then
    if validDate (isoWeekDate y w d) then some (isoWeekDate y w d) else none
  else none

/-- Numeric value of four decimal digit characters. -/
def numOfDigits4 (a b c d : Char) : Nat :=
  ((digitVal a * 10 + digitVal b) * 10 + digitVal c) * 10 + digitVal d

/-- Numeric value of two decimal digit characters. -/
def numOfDigits2 (a b : Char) : Nat := digitVal a * 10 + digitVal b

/-- `datetime.fromisoformat` on a string of at most ten characters: the
extended and basic calendar forms and the four week forms, with
CPython's validity checks; anything else raises (models the `except`
branch as `none`). -/
def fromIso10 (s : String) : Option CalDate :=
  match s.data with
  | [y1, y2, y3, y4, '-', 'W', w1, w2, '-', d1] =>
    if y1.isDigit && y2.isDigit && y3.isDigit && y4.isDigit
        && w1.isDigit && w2.isDigit && d1.isDigit then
      weekDateOf (numOfDigits4 y1 y2 y3 y4) (numOfDigits2 w1 w2) (digitVal d1)
    else none
  | [y1, y2, y3, y4, h1, m1, m2, h2, d1, d2] =>
    if y1.isDigit && y2.isDigit && y3.isDigit && y4.isDigit && (h1 == '-')
        && m1.isDigit && m2.isDigit && (h2 == '-') && d1.isDigit
        && d2.isDigit then
      if validDate (dateFromDigits y1 y2 y3 y4 m1 m2 d1 d2) then
        some (dateFromDigits y1 y2 y3 y4 m1 m2 d1 d2)
      else none
    else none
  | [y1, y2, y3, y4, '-', 'W', w1, w2] =>
    if y1.isDigit && y2.isDigit && y3.isDigit && y4.isDigit
        && w1.isDigit && w2.isDigit then
      weekDateOf (numOfDigits4 y1 y2 y3 y4) (numOfDigits2 w1 w2) 1
    else none
  | [y1, y2, y3, y4, 'W', w1, w2, d1] =>
    if y1.isDigit && y2.isDigit && y3.isDigit && y4.isDigit
        && w1.isDigit && w2.isDigit && d1.isDigit then
      weekDateOf (numOfDigits4 y1 y2 y3 y4) (numOfDigits2 w1 w2) (digitVal d1)
    else none
  | [y1, y2, y3, y4, m1, m2, d1, d2] =>
    if y1.isDigit && y2.isDigit && y3.isDigit && y4.isDigit
        && m1.isDigit && m2.isDigit && d1.isDigit && d2.isDigit then
      if validDate (dateFromDigits y1 y2 y3 y4 m1 m2 d1 d2) then
        some (dateFromDigits y1 y2 y3 y4 m1 m2 d1 d2)
      else none
    else none
  | [y1, y2, y3, y4, 'W', w1, w2] =>
    if y1.isDigit && y2.isDigit && y3.isDigit && y4.isDigit
        && w1.isDigit && w2.isDigit then
      weekDateOf (numOfDigits4 y1 y2 y3 y4) (numOfDigits2 w1 w2) 1
    else none
  | _ => none

/-- `Parser._normalize_date`: `fromisoformat` on the first ten
characters; on success the parsed date's `isoformat`, on any exception
the current date. -/
def normalizeDate (today : CalDate) (dtStr : String) : String :=
  match fromIso10 ⟨dtStr.data.take 10⟩ with
  | some d => isoOfDate d
  | none => isoOfDate today

/-! ### The corpus store (`SQLiteDAO`, lines 85–150) -/

/-- One row of the `docs` table. -/
structure Doc where
  id : String
  url : String
  domain : String
  lang : String
  published_at : String
  title : String
  tags : String
  summary : String
  text : String
  h_ud : String
deriving Repr, DecidableEq

/-- `SQLiteDAO._hash_ud(url, title)`: sha256 of
`url.strip() + "||" + title.strip()`, with the digest modelled as the
digested text itself (sha256 is injective in the model; note the
concatenation, as in the source, not the pair, is what is hashed). -/
def hashUd (url title : String) : String :=
  pyStrip url ++ "||" ++ pyStrip title

/-- `SQLiteDAO.upsert_doc`: insert keyed by `id`, or on conflict update
every field in place. -/
def upsertDoc (table : List Doc) (d : Doc) : List Doc :=
  if table.any (fun r => r.id == d.id) then
    table.map (fun r => if r.id == d.id then d else r)
  else table ++ [d]

/-- `SQLiteDAO.exists_ud(url, title)`. -/
def existsUd (table : List Doc) (url title : String) : Bool :=
  table.any (fun r => r.h_ud == hashUd url title)

/-- The document record `Parser.fetch_and_store` builds for a fetched
page (md5 of the URL modelled as the URL itself; the network-derived
title, date and body text are parameters). -/
def mkDoc (url title pub text : String) : Doc :=
  { id := url
    url := url
    domain := domainOf url
    lang := "ru"
    published_at := pub
    title := title
    tags := "[]"
    summary := ""
    text := text
    h_ud := hashUd url title }

/-- The dedup-then-store core of `Parser.fetch_and_store`: skip when
`exists_ud(url, title)` holds, otherwise upsert the built document. -/
def ingestStep (table : List Doc) (url title pub text : String) : List Doc :=
  if existsUd table url title then table
  else upsertDoc table (mkDoc url title pub text)

/-- `title LIKE '%kw%' OR text LIKE '%kw%'` for one keyword. -/
def docMatchesKw (kw : String) (d : Doc) : Bool :=
  likeMatch ('%' :: (kw.data ++ ['%'])) d.title.data
    || likeMatch ('%' :: (kw.data ++ ['%'])) d.text.data

/-- Stable insertion for `ORDER BY published_at DESC`. -/
def insertDesc (d : Doc) : List Doc → List Doc
  | [] => [d]
  | e :: es =>
    if strLe d.published_at e.published_at then e :: insertDesc d es
    else d :: e :: es

/-- Sort by `published_at` descending (stable w.r.t. table order). -/
def sortDescByDate : List Doc → List Doc
  | [] => []
  | d :: ds => insertDesc d (sortDescByDate ds)

/-- `SQLiteDAO.recent_docs_keywords(keywords, days)`: rows whose
`published_at` compares `>=` the ISO string of `today - days` (SQLite
TEXT comparison, i.e. lexicographic), OR-filtered by `LIKE` keyword
matches on title or text when the keyword list is non-empty, ordered by
`published_at` descending, `LIMIT 500`. -/
def recentDocsKeywords (table : List Doc) (keywords : List String)
    (days : Nat) (today : CalDate) : List Doc :=
  let since := isoOfDate (dateSubDays today days)
  let base := table.filter (fun d => strLe since d.published_at)
  let hits :=
    if keywords.isEmpty then base
    else base.filter (fun d => keywords.any (fun kw => docMatchesKw kw d))
  (sortDescByDate hits).take 500

/-- Spec-side predicate for C5: full (Unicode) case-insensitive
substring match of a keyword in a document's title or text, using the
lower-casing the claim intends (modelled for ASCII and Cyrillic). -/
def kwMatchUnicodeCI (kw : String) (d : Doc) : Bool :=
  containsChars (kw.data.map pyLowerChar) (d.title.data.map pyLowerChar)
    || containsChars (kw.data.map pyLowerChar) (d.text.data.map pyLowerChar)

/-- Spec-side predicate for the amended C5: ASCII-case-insensitive
substring match of a keyword in title or text (SQLite `LIKE` folds case
for ASCII only). -/
def kwMatchAsciiCI (kw : String) (d : Doc) : Bool :=
  containsCI kw.data d.title.data || containsCI kw.data d.text.data

/-- A keyword is wildcard-free when it contains no SQL `LIKE`
metacharacters `%` or `_`. -/
def wildcardFree (kw : String) : Bool :=
  kw.data.all (fun c => c ≠ '%' && c ≠ '_')

/-- Spec-side pass predicate for the amended C5: in the window (string
comparison of normalized dates against the `since` bound) and, when the
keyword list is non-empty, ASCII-case-insensitively matching a keyword. -/
def docPasses (since : String) (keywords : List String) (d : Doc) : Bool :=
  strLe since d.published_at
    && (keywords.isEmpty || keywords.any (fun kw => kwMatchAsciiCI kw d))

/-- Chronological strict order on calendar dates. -/
def dateLT (a b : CalDate) : Prop :=
  a.year < b.year
    ∨ (a.year = b.year
        ∧ (a.month < b.month ∨ (a.month = b.month ∧ a.day < b.day)))

/-- Chronological order on calendar dates. -/
def dateLE (a b : CalDate) : Prop := dateLT a b ∨ a = b

/-- Numeric value of a list of decimal digit characters. -/
def digitsVal : List Char → Nat
  | [] => 0
  | c :: cs => digitVal c * 10 ^ cs.length + digitsVal cs

/-- A concrete stored document with a Cyrillic title, inside the
90-day window of 2026-10-12. -/
def cexDoc : Doc :=
  { id := "https://a.example/k"
    url := "https://a.example/k"
    domain := "a.example"
    lang := "ru"
    published_at := "2026-10-01"
    title := "Кофе"
    tags := "[]"
    summary := ""
    text := ""
    h_ud := "https://a.example/k||Кофе" }

/-- A concrete stored document with an ASCII title, inside the 90-day
window of 2026-10-12. -/
def sampleDoc : Doc :=
  { id := "https://b.example/c"
    url := "https://b.example/c"
    domain := "b.example"
    lang := "en"
    published_at := "2026-10-01"
    title := "Coffee trends"
    tags := "[]"
    summary := ""
    text := "coffee"
    h_ud := "https://b.example/c||Coffee trends" }

/-! ### JSON values

The shape `json.loads` / `json.dumps` work with.  JSON numbers are
modelled as integers (the schema's only numeric field, `week`, is an
integer; float literals are outside the model). -/

inductive JValue where
  | null
  | bool (b : Bool)
  | num (n : Int)
  | str (s : String)
  | arr (elems : List JValue)
  | obj (fields : List (String × JValue))
deriving Inhabited

/-- A Python exception surfacing from the embedded code. -/
inductive PyErr where
  | attributeError
  | valueError
  | typeError
deriving Repr, DecidableEq

/-! `jSize`: structural size of a JSON value (used to budget parser
fuel). -/
mutual
def jSize : JValue → Nat
  | .null => 0
  | .bool _ => 0
  | .num _ => 0
  | .str _ => 0
  | .arr es => 1 + jSizeList es
  | .obj fs => 1 + jSizeFields fs
def jSizeList : List JValue → Nat
  | [] => 0
  | v :: vs => 1 + jSize v + jSizeList vs
def jSizeFields : List (String × JValue) → Nat
  | [] => 0
  | (_, v) :: fs => 1 + jSize v + jSizeFields fs
end

/-- Whether the remainder cannot extend a numeral. -/
def headNotDigit : List Char → Bool
  | [] => true
  | c :: _ => !c.isDigit

/-- The keys of an association list. -/
def keysOf : List (String × JValue) → List String
  | [] => []
  | (k, _) :: fs => k :: keysOf fs

/-- No key occurs twice. -/
def noDupKeys : List String → Bool
  | [] => true
  | k :: ks => !(ks.contains k) && noDupKeys ks

/-! `jWF`: well-formedness — every object in the value has
pairwise-distinct keys, as a Python `dict` (hence anything `json.loads`
returns) has. -/
mutual
def jWF : JValue → Bool
  | .null => true
  | .bool _ => true
  | .num _ => true
  | .str _ => true
  | .arr es => jWFList es
  | .obj fs => noDupKeys (keysOf fs) && jWFFields fs
def jWFList : List JValue → Bool
  | [] => true
  | v :: vs => jWF v && jWFList vs
def jWFFields : List (String × JValue) → Bool
  | [] => true
  | (_, v) :: fs => jWF v && jWFFields fs
end

/-! ### Python dict operations on association lists -/

/-- `dict` lookup (keys are unique, so first match suffices). -/
def dictFind : List (String × JValue) → String → Option JValue
  | [], _ => none
  | (k', v) :: rest, k => if k' = k then some v else dictFind rest k

/-- `d.get(k, default)` / `d[k]` after presence is ensured. -/
def dictGetD (fields : List (String × JValue)) (k : String)
    (dflt : JValue) : JValue :=
  (dictFind fields k).getD dflt

/-- `d[k] = v`: update in place, else append. -/
def dictSet : List (String × JValue) → String → JValue → List (String × JValue)
  | [], k, v => [(k, v)]
  | (k', v') :: rest, k, v =>
    if k' = k then (k', v) :: rest else (k', v') :: dictSet rest k v

/-- `d.setdefault(k, v)`. -/
def dictSetdefault (fields : List (String × JValue)) (k : String)
    (v : JValue) : List (String × JValue) :=
  if (dictFind fields k).isSome then fields else fields ++ [(k, v)]

/-- Building a `dict` from parsed key/value pairs: first-occurrence
position, last-occurrence value — what `json.loads` does with duplicate
keys. -/
def dedupFields (fs : List (String × JValue)) : List (String × JValue) :=
  fs.foldl (fun acc kv => dictSet acc kv.1 kv.2) []

/-! ### Python truthiness, `str()`, `int()` -/

/-- Python truthiness of a JSON value. -/
def pyTruthy : JValue → Bool
  | .null => false
  | .bool b => b
  | .num n => n != 0
  | .str s => !s.data.isEmpty
  | .arr es => !es.isEmpty
  | .obj fs => !fs.isEmpty

/-- Decimal characters of an integer, as Python prints it. -/
def intChars (i : Int) : List Char :=
  if i < 0 then '-' :: natChars (-i).toNat else natChars i.toNat

/-- Two lowercase hex digits. -/
def hex2 (n : Nat) : List Char :=
  [Nat.digitChar (n / 16 % 16), Nat.digitChar (n % 16)]

/-- Python `repr` of a string: quoted with `'` (or `"` when the text
contains `'` but no `"`), with backslash escapes for the quote,
backslash, newline/return/tab and other control characters. -/
def pyReprStr (s : String) : String :=
  let q : Char := if s.data.contains '\'' && !(s.data.contains '"')
    then '"' else '\''
  let esc := s.data.foldr (fun c acc =>
    (if c = '\\' ∨ c = q then ['\\', c]
     else if c = '\n' then ['\\', 'n']
     else if c = '\r' then ['\\', 'r']
     else if c = '\t' then ['\\', 't']
     else if c.toNat < 32 ∨ c.toNat = 127 then '\\' :: 'x' :: hex2 c.toNat
     else [c]) ++ acc) []
  ⟨q :: esc ++ [q]⟩

/-! `pyRepr`: Python `repr` of a JSON-shaped value (lists and dicts
print with brackets/braces and `", "` separators, as CPython does). -/
mutual
def pyRepr : JValue → String
  | .null => "None"
  | .bool true => "True"
  | .bool false => "False"
  | .num n => ⟨intChars n⟩
  | .str s => pyReprStr s
  | .arr es => ⟨'[' :: pyReprList es ++ [']']⟩
  | .obj fs => ⟨'{' :: pyReprFields fs ++ ['}']⟩
def pyReprList : List JValue → List Char
  | [] => []
  | [v] => (pyRepr v).data
  | v :: vs => (pyRepr v).data ++ ',' :: ' ' :: pyReprList vs
def pyReprFields : List (String × JValue) → List Char
  | [] => []
  | [(k, v)] => (pyReprStr k).data ++ ':' :: ' ' :: (pyRepr v).data
  | (k, v) :: fs =>
    (pyReprStr k).data ++ ':' :: ' ' :: (pyRepr v).data
      ++ ',' :: ' ' :: pyReprFields fs
end

/-- Python `str()` of a JSON-shaped value. -/
def pyStr : JValue → String
  | .str s => s
  | .null => "None"
  | .bool true => "True"
  | .bool false => "False"
  | .num n => ⟨intChars n⟩
  | v => pyRepr v

/-- Python `str(x).strip()`, the pervasive coercion in the validator. -/
def pyStrStrip (v : JValue) : String := pyStrip (pyStr v)

/-- Python `int(x)` on a JSON value: ints pass through, booleans become
0/1, strings parse as optionally-signed decimal numerals (after
stripping), everything else raises. -/
def pyInt : JValue → Except PyErr Int
  | .num n => .ok n
  | .bool true => .ok 1
  | .bool false => .ok 0
  | .str s =>
    (match pyStripChars s.data with
     | '-' :: ds =>
       if ds ≠ [] ∧ ds.all (·.isDigit) then .ok (-(digitsVal ds : Int))
       else .error .valueError
     | '+' :: ds =>
       if ds ≠ [] ∧ ds.all (·.isDigit) then .ok (digitsVal ds : Int)
       else .error .valueError
     | ds =>
       if ds ≠ [] ∧ ds.all (·.isDigit) then .ok (digitsVal ds : Int)
       else .error .valueError)
  | .null => .error .typeError
  | .arr _ => .error .typeError
  | .obj _ => .error .typeError

/-! ### `json.dumps(obj, ensure_ascii=False)` -/

/-- One character of a dumped JSON string (`"`, `\`, the short control
escapes, `\uXXXX` for other controls, everything else verbatim). -/
def hex4 (n : Nat) : List Char :=
  [Nat.digitChar (n / 4096 % 16), Nat.digitChar (n / 256 % 16),
   Nat.digitChar (n / 16 % 16), Nat.digitChar (n % 16)]

def escapeChar (c : Char) : List Char :=
  if c = '"' then ['\\', '"']
  else if c = '\\' then ['\\', '\\']
  else if c = '\n' then ['\\', 'n']
  else if c = '\r' then ['\\', 'r']
  else if c = '\t' then ['\\', 't']
  else if c = '\x08' then ['\\', 'b']
  else if c = '\x0c' then ['\\', 'f']
  else if c.toNat < 32 then '\\' :: 'u' :: hex4 c.toNat
  else [c]

def escapeChars : List Char → List Char
  | [] => []
  | c :: cs => escapeChar c ++ escapeChars cs

/-! `dumpJ`: `json.dumps(x, ensure_ascii=False)` with the default
`", "` and `": "` separators. -/
mutual
def dumpJ : JValue → List Char
  | .null => "null".data
  | .bool true => "true".data
  | .bool false => "false".data
  | .num n => intChars n
  | .str s => '"' :: (escapeChars s.data ++ ['"'])
  | .arr [] => "[]".data
  | .arr (v :: vs) => '[' :: (dumpJ v ++ dumpArrRest vs ++ [']'])
  | .obj [] => ['{', '}']
  | .obj (f :: fs) => '{' :: (dumpField f ++ dumpObjRest fs ++ ['}'])
def dumpField : String × JValue → List Char
  | (k, v) => '"' :: (escapeChars k.data ++ '"' :: ':' :: ' ' :: dumpJ v)
def dumpArrRest : List JValue → List Char
  | [] => []
  | v :: vs => ',' :: ' ' :: (dumpJ v ++ dumpArrRest vs)
def dumpObjRest : List (String × JValue) → List Char
  | [] => []
  | f :: fs => ',' :: ' ' :: (dumpField f ++ dumpObjRest fs)
end

def jsonDumps (v : JValue) : String := ⟨dumpJ v⟩

/-! ### `json.loads` (recursive-descent model, fuel-based) -/

def isJsonWs (c : Char) : Bool :=
  c = ' ' || c = '\t' || c = '\n' || c = '\r'

def skipWs (cs : List Char) : List Char := cs.dropWhile isJsonWs

def hexDigVal (c : Char) : Option Nat :=
  if '0' ≤ c ∧ c ≤ '9' then some (c.toNat - 48)
  else if 'a' ≤ c ∧ c ≤ 'f' then some (c.toNat - 87)
  else if 'A' ≤ c ∧ c ≤ 'F' then some (c.toNat - 55)
  else none

def decodeEsc (e : Char) : Option Char :=
  if e = '"' then some '"'
  else if e = '\\' then some '\\'
  else if e = '/' then some '/'
  else if e = 'b' then some '\x08'
  else if e = 'f' then some '\x0c'
  else if e = 'n' then some '\n'
  else if e = 'r' then some '\r'
  else if e = 't' then some '\t'
  else none

/-- Body of a JSON string after the opening quote: the decoded content
and the remainder after the closing quote. -/
def parseStringBody : List Char → Option (List Char × List Char)
  | [] => none
  | '"' :: rest => some ([], rest)
  | '\\' :: 'u' :: h1 :: h2 :: h3 :: h4 :: rest =>
    (match hexDigVal h1, hexDigVal h2, hexDigVal h3, hexDigVal h4 with
     | some a, some b, some c', some d =>
       (parseStringBody rest).map (fun p =>
         (Char.ofNat (((a * 16 + b) * 16 + c') * 16 + d) :: p.1, p.2))
     | _, _, _, _ => none)
  | '\\' :: e :: rest =>
    (match decodeEsc e with
     | some c' => (parseStringBody rest).map (fun p => (c' :: p.1, p.2))
     | none => none)
  | c :: rest => (parseStringBody rest).map (fun p => (c :: p.1, p.2))

/-- Longest digit run at the front. -/
def takeDigits : List Char → List Char × List Char
  | [] => ([], [])
  | c :: cs =>
    if c.isDigit then
      let p := takeDigits cs
      (c :: p.1, p.2)
    else ([], c :: cs)

/-- The literal continuations of `null` / `true` / `false`. -/
def stripLit : List Char → List Char → Option (List Char)
  | [], cs => some cs
  | l :: ls, c :: cs => if c = l then stripLit ls cs else none
  | _ :: _, [] => none

/-- An integer literal (optionally signed decimal; JSON floats are
outside the model). -/
def parseNum (cs : List Char) : Option (Int × List Char) :=
  match cs with
  | [] => none
  | c :: rest =>
    if c = '-' then
      (match takeDigits rest with
       | ([], _) => none
       | (ds, r) => some (-(digitsVal ds : Int), r))
    else
      (match takeDigits (c :: rest) with
       | ([], _) => none
       | (ds, r) => some ((digitsVal ds : Int), r))

mutual
def parseJ : Nat → List Char → Option (JValue × List Char)
  | 0, _ => none
  | fuel + 1, cs =>
    match skipWs cs with
    | [] => none
    | c :: rest =>
      if c = 'n' then (stripLit "ull".data rest).map (fun r => (.null, r))
      else if c = 't' then (stripLit "rue".data rest).map
        (fun r => (.bool true, r))
      else if c = 'f' then (stripLit "alse".data rest).map
        (fun r => (.bool false, r))
      else if c = '"' then
        (parseStringBody rest).map (fun p => (.str ⟨p.1⟩, p.2))
      else if c = '[' then
        (match skipWs rest with
         | [] => none
         | c2 :: r2 =>
           if c2 = ']' then some (.arr [], r2)
           else (parseArrItems fuel rest).map (fun p => (.arr p.1, p.2)))
      else if c = '{' then
        (match skipWs rest with
         | [] => none
         | c2 :: r2 =>
           if c2 = '}' then some (.obj [], r2)
           else (parseObjItems fuel rest).map
             (fun p => (.obj (dedupFields p.1), p.2)))
      else (parseNum (c :: rest)).map (fun p => (.num p.1, p.2))
def parseArrItems : Nat → List Char → Option (List JValue × List Char)
  | 0, _ => none
  | fuel + 1, cs =>
    match parseJ fuel cs with
    | none => none
    | some (v, rest) =>
      match skipWs rest with
      | ',' :: r => (parseArrItems fuel r).map (fun p => (v :: p.1, p.2))
      | ']' :: r => some ([v], r)
      | _ => none
def parseObjItems : Nat → List Char
    → Option (List (String × JValue) × List Char)
  | 0, _ => none
  | fuel + 1, cs =>
    match skipWs cs with
    | '"' :: rest =>
      (match parseStringBody rest with
       | none => none
       | some (k, rest2) =>
         match skipWs rest2 with
         | ':' :: rest3 =>
           (match parseJ fuel rest3 with
            | none => none
            | some (v, rest4) =>
              match skipWs rest4 with
              | ',' :: r => (parseObjItems fuel r).map
                  (fun p => ((⟨k⟩, v) :: p.1, p.2))
              | '}' :: r => some ([(⟨k⟩, v)], r)
              | _ => none)
         | _ => none)
    | _ => none
end

/-- `json.loads`: parse with ample fuel and require only trailing
whitespace. -/
def jsonLoads (s : String) : Option JValue :=
  match parseJ (s.data.length + 2) s.data with
  | some (v, rest) => if (skipWs rest).isEmpty then some v else none
  | none => none

/-! ### `ValidatorInAgent.run` (lines 393–401) -/

/-- The normalized-query defaulting: `setdefault` for `domain`,
`location`, `details`. -/
def runVIn (uq : List (String × JValue)) : List (String × JValue) :=
  dictSetdefault
    (dictSetdefault (dictSetdefault uq "domain" (.str "general"))
      "location" (.str "Москва/Россия"))
    "details" (.str "")

/-! ### `RetrievalSynthesisAgent` (lines 265–369) -/

/-- The `KEYWORDS` synonym table (insertion order preserved). -/
def kwTable : List (String × List String) :=
  [("кофейня",
    ["кофейня", "кофе", "coffee", "cafe", "кафе", "horeca", "foodservice"]),
   ("horeca",
    ["horeca", "foodservice", "ресторан", "кафе", "кофе", "food&beverage",
     "f&b"]),
   ("retail",
    ["ритейл", "retail", "магазин", "ecommerce", "омниканал", "маркетплейс"])]

/-- `list(dict.fromkeys(xs))`: order-preserving de-duplication. -/
def dedupKeepFirstAux (seen : List String) : List String → List String
  | [] => []
  | s :: ss =>
    if seen.contains s then dedupKeepFirstAux seen ss
    else s :: dedupKeepFirstAux (s :: seen) ss

def dedupKeepFirst (l : List String) : List String := dedupKeepFirstAux [] l

/-- `RetrievalSynthesisAgent._expand_kws`: the domain itself plus the
synonym lists whose table key occurs in `domain.lower()`; raises
`AttributeError` when the domain is a truthy non-string (`.lower()`). -/
def expandKws (dom : JValue) : Except PyErr (List String) :=
  if pyTruthy dom then
    match dom with
    | .str s =>
      .ok (dedupKeepFirst ([s] ++ kwTable.foldl (fun acc kv =>
        if containsChars kv.1.data (pyLower s).data then acc ++ kv.2
        else acc) []))
    | _ => .error .attributeError
  else .ok []

/-- Body-text truncation to 1200 characters with an ellipsis marker. -/
def truncateText (t : String) : String :=
  if 1200 < t.data.length then ⟨t.data.take 1200 ++ "...".data⟩ else t

/-- `RetrievalSynthesisAgent._search`: retrieve on the expanded
keywords over the evidence window, keep the first 100, project to
url/title/date/truncated text. -/
def searchItems (table : List Doc) (today : CalDate) (dom : JValue) :
    Except PyErr (List EvidenceItem) :=
  (expandKws dom).map (fun kws =>
    ((recentDocsKeywords table kws 90 today).take 100).map (fun r =>
      { url := r.url, title := r.title, date := r.published_at,
        text := truncateText r.text }))

/-- `re.search(r"\{.*\}", text, re.S)`: from the first opening brace to
the last closing brace after it. -/
def braceSpan (cs : List Char) : Option (List Char) :=
  match cs.dropWhile (· ≠ '{') with
  | [] => none
  | c :: rest =>
    if rest.contains '}' then
      some (c :: (rest.reverse.dropWhile (· ≠ '}')).reverse)
    else none

/-- `RetrievalSynthesisAgent._json_or_repair`: direct parse, then parse
of the largest brace-delimited substring, else `None`. -/
def jsonOrRepair (text : String) : Option JValue :=
  match jsonLoads text with
  | some v => some v
  | none =>
    match braceSpan text.data with
    | some sub => jsonLoads ⟨sub⟩
    | none => none

/-- The deterministic local-fallback payload built from the (truthy)
domain string and the evidence items
(`RetrievalSynthesisAgent._local_fallback`). -/
def fallbackObj (domStr : String) (items : List EvidenceItem) : JValue :=
  let srcs := (items.take 5).map (fun it =>
    JValue.obj [("url", .str it.url), ("title", .str ⟨it.title.data.take 80⟩),
      ("date", .str it.date)])
  .obj [
    ("idea", .str (pyCapitalize domStr
      ++ ": MVP под Москву/Россия на основе собранных источников.")),
    ("local_niches", .arr [
      .obj [("name", .str "B2B-подписки у офисов"),
        ("why_now", .str "Предсказуемые расходы, гибридная работа")],
      .obj [("name", .str "Лояльность/QR"),
        ("why_now", .str "Удержание дешевле привлечения")]]),
    ("90_day_plan", .arr [
      .obj [("week", .num 1), ("tasks", .arr [.str "Карта конкурентов",
        .str "Опрос 30 респондентов", .str "MVP оффера"])],
      .obj [("week", .num 2), ("tasks", .arr [.str "Пилот подписки 20–30 клиентов",
        .str "A/B цена/объем"])],
      .obj [("week", .num 3), ("tasks", .arr [.str "Отчет по юнит-экономике",
        .str "Решение о масштабировании"])]]),
    ("risks", .arr [
      .obj [("risk", .str "Слабая конверсия подписки"),
        ("mitigation", .str "A/B + B2B-партнёрства")],
      .obj [("risk", .str "Высокая аренда"),
        ("mitigation", .str "Коворкинги / revenue-share")]]),
    ("unit_economics_notes", .arr [.str "CAC ≤ 20% ARPU", .str "GM ≥ 65–70%",
      .str "Payback ≤ 12 мес", .str "LTV/CAC > 3"]),
    ("sources", .arr srcs),
    ("evidence", .arr ((items.take 5).map (fun it =>
      .str (domainOf it.url ++ ": " ++ (⟨it.title.data.take 80⟩ : String)))))]

/-- `_local_fallback(uq, items)`: reads `uq.get('domain') or 'general'`
and `.capitalize()`s it (raising on a truthy non-string domain). -/
def localFallback (uq : List (String × JValue)) (items : List EvidenceItem) :
    Except PyErr JValue :=
  let domv := dictGetD uq "domain" .null
  let dv := if pyTruthy domv then domv else .str "general"
  match dv with
  | .str s => .ok (fallbackObj s items)
  | _ => .error .attributeError

/-- The fixed refusal payload returned when the evidence gate fails
(lines 337–345). -/
def refusalObj : JValue :=
  .obj [("idea", .str ""), ("local_niches", .arr []),
    ("90_day_plan", .arr []), ("risks", .arr []),
    ("unit_economics_notes", .arr []), ("sources", .arr []),
    ("evidence", .arr [.str "в базе данных нет информации по данному вопросу. хотите чтобы я все равно сказал рекомендацию на свое усмотрение? (не подкреплённое данными)"])]

/-- `RetrievalSynthesisAgent.run`.  The single generation call is
modelled by `genText`, the completion content the OpenRouter client
would return for this query; the second component records whether that
call was made. -/
def runRS (relax : Bool) (today : CalDate) (table : List Doc)
    (genText : String) (uq : List (String × JValue)) :
    Except PyErr (String × Bool) := do
  let items ← searchItems table today (dictGetD uq "domain" (.str ""))
  if (evidenceOk relax items).1 then
    let objv ← match jsonOrRepair genText with
      | some v => if pyTruthy v then pure v else localFallback uq items
      | none => localFallback uq items
    return (jsonDumps objv, true)
  else
    return (jsonDumps refusalObj, false)

/-- Dictionary-shapedness (spec side, for C6). -/
def isDict : JValue → Bool
  | .obj _ => true
  | _ => false

/-! ### `ValidatorOutAgent` (lines 403–488) -/

/-- `ValidatorOutAgent.KEYS`. -/
def voKeys : List String :=
  ["idea", "local_niches", "90_day_plan", "risks", "unit_economics_notes",
   "sources", "evidence"]

/-- `ValidatorOutAgent._as_list`. -/
def asList : JValue → List JValue
  | .null => []
  | .arr es => es
  | v => [v]

/-- The `idea` coercion: left alone when already a string, else
`str(...)` — equivalently `str(...)` always, since `str` is the
identity on strings. -/
def coerceIdea (v : JValue) : JValue := .str (pyStr v)

/-- The `local_niches` coercion to `(name, why_now)` pairs. -/
def coerceNiches (v : JValue) : List (String × String) :=
  (asList v).foldr (fun item acc =>
    match item with
    | .obj fs =>
      let name := pyStrStrip (dictGetD fs "name" (dictGetD fs "title" (.str "")))
      let why := pyStrStrip (dictGetD fs "why_now" (.str ""))
      if name ≠ "" then (name, why) :: acc else acc
    | _ =>
      let s := pyStrStrip item
      if s ≠ "" then (s, "") :: acc else acc) []

def encodeNiches (l : List (String × String)) : JValue :=
  .arr (l.map (fun p => .obj [("name", .str p.1), ("why_now", .str p.2)]))

/-- The `90_day_plan` coercion to `(week, tasks)` pairs; `int(...)` on a
bad `week` value raises, as in the source. -/
def coercePlanAux : Int → List JValue → Except PyErr (List (Int × List String))
  | _, [] => .ok []
  | idx, p :: rest =>
    match p with
    | .obj fs => do
      let week ← pyInt (dictGetD fs "week" (.num idx))
      let tasks := (asList (dictGetD fs "tasks" .null)).filterMap (fun t =>
        let s := pyStrStrip t
        if s ≠ "" then some s else none)
      let tail ← coercePlanAux (idx + 1) rest
      if tasks ≠ [] then pure ((week, tasks) :: tail) else pure tail
    | _ => do
      let s := pyStrStrip p
      let tail ← coercePlanAux (idx + 1) rest
      if s ≠ "" then pure ((idx, [s]) :: tail) else pure tail

def coercePlan (v : JValue) : Except PyErr (List (Int × List String)) :=
  coercePlanAux 1 (asList v)

def encodePlan (l : List (Int × List String)) : JValue :=
  .arr (l.map (fun p => .obj [("week", .num p.1),
    ("tasks", .arr (p.2.map .str))]))

/-- The `risks` coercion: collect `(risk, mitigation)` pairs, then keep
those with a non-empty risk. -/
def coerceRisks (v : JValue) : List (String × String) :=
  ((asList v).foldr (fun r acc =>
    match r with
    | .obj fs =>
      (pyStrStrip (dictGetD fs "risk" (.str "")),
        pyStrStrip (dictGetD fs "mitigation" (.str ""))) :: acc
    | _ =>
      let s := pyStrStrip r
      if s ≠ "" then (s, "") :: acc else acc) []).filter (fun p => p.1 ≠ "")

def encodeRisks (l : List (String × String)) : JValue :=
  .arr (l.map (fun p => .obj [("risk", .str p.1), ("mitigation", .str p.2)]))

/-- The `unit_economics_notes` / `evidence` coercion: stripped non-empty
strings. -/
def coerceStrList (v : JValue) : List String :=
  (asList v).filterMap (fun x =>
    let s := pyStrStrip x
    if s ≠ "" then some s else none)

def encodeStrList (l : List String) : JValue := .arr (l.map .str)

/-- `_source(s)`: url/title/date extraction with the `YYYY-MM-DD`
rewrite to the current date. -/
def coerceSource (today : CalDate) (s : JValue) : String × String × String :=
  let utd :=
    match s with
    | .obj fs =>
      (pyStrStrip (dictGetD fs "url" (.str "")),
       pyStrStrip (dictGetD fs "title" (.str "")),
       pyStrStrip (dictGetD fs "date" (.str "")))
    | _ =>
      let sv := pyStrStrip s
      if startsWithChars "http".data sv.data then (sv, "", "")
      else ("", sv, "")
  if utd.2.2 = "" ∨ ¬ dateShapeOk utd.2.2 then
    (utd.1, utd.2.1, isoOfDate today)
  else utd

/-- The `sources` coercion: drop `None` entries, apply `_source`. -/
def coerceSources (today : CalDate) (v : JValue) :
    List (String × String × String) :=
  ((asList v).filter (fun s =>
    match s with
    | .null => false
    | _ => true)).map (coerceSource today)

def encodeSources (l : List (String × String × String)) : JValue :=
  .arr (l.map (fun p => .obj [("url", .str p.1), ("title", .str p.2.1),
    ("date", .str p.2.2)]))

/-- The field-level coercion pass of `ValidatorOutAgent.run` on the
parsed value: `setdefault` every required key, then coerce the seven
fields in source order.  A non-dict parsed value raises
`AttributeError` (`obj.setdefault` on a list/str/int/None), exactly as
the source does. -/
def runVOutCore (today : CalDate) (v0 : JValue) :
    Except PyErr (List (String × JValue)) :=
  match v0 with
  | .obj fs0 => do
    let fs := voKeys.foldl (fun acc k =>
      dictSetdefault acc k (if k = "idea" then .str "" else .arr [])) fs0
    let fs := dictSet fs "idea" (coerceIdea (dictGetD fs "idea" .null))
    let fs := dictSet fs "local_niches"
      (encodeNiches (coerceNiches (dictGetD fs "local_niches" .null)))
    let plan ← coercePlan (dictGetD fs "90_day_plan" .null)
    let fs := dictSet fs "90_day_plan" (encodePlan plan)
    let fs := dictSet fs "risks"
      (encodeRisks (coerceRisks (dictGetD fs "risks" .null)))
    let fs := dictSet fs "unit_economics_notes"
      (encodeStrList (coerceStrList (dictGetD fs "unit_economics_notes" .null)))
    let fs := dictSet fs "sources"
      (encodeSources (coerceSources today (dictGetD fs "sources" .null)))
    let fs := dictSet fs "evidence"
      (encodeStrList (coerceStrList (dictGetD fs "evidence" .null)))
    return fs
  | _ => .error .attributeError

/-- `ValidatorOutAgent.run`: parse (`{}` on parse failure), coerce,
re-serialize. -/
def runVOut (today : CalDate) (text : String) : Except PyErr String :=
  (runVOutCore today ((jsonLoads text).getD (.obj []))).map
    (fun fs => jsonDumps (.obj fs))

/-! ### Shape invariants of the coerced fields (used to state that the
output pass is a fixpoint on its own output) -/

/-- Pairs of stripped strings with a non-empty first component, as
`local_niches` / `risks` entries leave the coercion. -/
def pairsInv (l : List (String × String)) : Prop :=
  ∀ p ∈ l, pyStrip p.1 = p.1 ∧ p.1 ≠ "" ∧ pyStrip p.2 = p.2

/-- Plan entries: a non-empty task list of stripped non-empty strings. -/
def planInv (l : List (Int × List String)) : Prop :=
  ∀ p ∈ l, p.2 ≠ [] ∧ ∀ s ∈ p.2, pyStrip s = s ∧ s ≠ ""

/-- Stripped non-empty strings (`unit_economics_notes` / `evidence`). -/
def strsInv (l : List String) : Prop :=
  ∀ s ∈ l, pyStrip s = s ∧ s ≠ ""

/-- Source triples: stripped url and title, and a date that either has
the `YYYY-MM-DD` shape or is the current date's ISO string. -/
def sourcesInv (today : CalDate) (l : List (String × String × String)) : Prop :=
  ∀ p ∈ l, pyStrip p.1 = p.1 ∧ pyStrip p.2.1 = p.2.1 ∧
    (pyStrip p.2.2 = p.2.2 ∧ dateShapeOk p.2.2 = true ∧ p.2.2 ≠ ""
      ∨ p.2.2 = isoOfDate today)

/-- A field dictionary as `ValidatorOutAgent.run` outputs it: each of
the seven required keys is bound to an already-coerced value. -/
def goodFields (today : CalDate) (fs : List (String × JValue)) : Prop :=
  (∃ s, dictFind fs "idea" = some (.str s)) ∧
  (∃ l, pairsInv l ∧ dictFind fs "local_niches" = some (encodeNiches l)) ∧
  (∃ l, planInv l ∧ dictFind fs "90_day_plan" = some (encodePlan l)) ∧
  (∃ l, pairsInv l ∧ dictFind fs "risks" = some (encodeRisks l)) ∧
  (∃ l, strsInv l ∧
    dictFind fs "unit_economics_notes" = some (encodeStrList l)) ∧
  (∃ l, sourcesInv today l ∧ dictFind fs "sources" = some (encodeSources l)) ∧
  (∃ l, strsInv l ∧ dictFind fs "evidence" = some (encodeStrList l))

/-! ## Theorems -/

theorem length_insertSorted (s : String) (l : List String) :
    (insertSorted s l).length = l.length + 1 := by
  induction l with
  | nil => rfl
  | cons t ts ih =>
    unfold insertSorted
    by_cases h : strLe s t = true <;> simp [h, ih]

theorem length_sortStrings (l : List String) :
    (sortStrings l).length = l.length := by
  induction l with
  | nil => rfl
  | cons t ts ih =>
    simpa [sortStrings, List.foldr, length_insertSorted] using ih

theorem evidenceDomains_length (items : List EvidenceItem) :
    (evidenceDomains items).length
      = ((items.map (fun i => domainOf i.url)).toFinset).card := by
  rw [evidenceDomains, length_sortStrings, List.card_toFinset]

/-- C4: the evidence policy is a pure decision: `_evidence_ok` accepts a
list of evidence items iff the number of distinct source domains among
them is at least 2 (standard mode) or the number of items is at least 2
(relaxed mode, selected by the `DEMO_EVIDENCE_RELAX` flag); the empty
list is insufficient in both modes, and repeated items from one domain
count that domain once (the criterion is the cardinality of the set of
domains). -/
theorem evidence_ok_spec (relax : Bool) (items : List EvidenceItem) :
    ((evidenceOk relax items).1 = true ↔
      (if relax then 2 ≤ items.length
       else 2 ≤ ((items.map (fun i => domainOf i.url)).toFinset).card))
    ∧ (evidenceOk relax []).1 = false := by
  constructor
  · cases relax with
    | false =>
      simp only [evidenceOk, if_neg Bool.false_ne_true, decide_eq_true_eq,
        Bool.false_eq_true, if_false]
      rw [← evidenceDomains_length]
    | true =>
      simp [evidenceOk]
  · cases relax <;> simp [evidenceOk, evidenceDomains, sortStrings]

theorem domainOf_eq_unknown_of_shape_false (s : String)
    (h : schemeHostShape (pyStrip s) = false) : domainOf s = "unknown" := by
  have h' : ((startsWithChars "http://".data (pyStripChars s.data)
        && !((pyStripChars s.data).drop 7 |>.takeWhile (· ≠ '/')).isEmpty)
      || (startsWithChars "https://".data (pyStripChars s.data)
        && !((pyStripChars s.data).drop 8 |>.takeWhile (· ≠ '/')).isEmpty)) = false := h
  rw [Bool.or_eq_false_iff, Bool.and_eq_false_iff, Bool.and_eq_false_iff] at h'
  obtain ⟨h1, h2⟩ := h'
  unfold domainOf
  rcases h1 with h1 | h1
  · rw [if_neg (by simp [h1])]
    rcases h2 with h2 | h2
    · rw [if_neg (by simp [h2])]
    · by_cases hb : startsWithChars "https://".data (pyStripChars s.data)
      · rw [if_pos hb, if_pos (by simpa using h2)]
      · rw [if_neg (by simpa using hb)]
  · by_cases ha : startsWithChars "http://".data (pyStripChars s.data)
    · rw [if_pos ha, if_pos (by simpa using h1)]
    · rw [if_neg (by simpa using ha)]
      rcases h2 with h2 | h2
      · rw [if_neg (by simp [h2])]
      · by_cases hb : startsWithChars "https://".data (pyStripChars s.data)
        · rw [if_pos hb, if_pos (by simpa using h2)]
        · rw [if_neg (by simpa using hb)]

theorem evidenceOk_false_of_all_unknown (items : List EvidenceItem)
    (hall : ∀ i ∈ items, domainOf i.url = "unknown") :
    (evidenceOk false items).1 = false := by
  have hsub : (items.map (fun i => domainOf i.url)).toFinset
      ⊆ ({"unknown"} : Finset String) := by
    intro x hx
    rw [List.mem_toFinset, List.mem_map] at hx
    obtain ⟨i, hi, rfl⟩ := hx
    simp [hall i hi]
  have hcard : ((items.map (fun i => domainOf i.url)).toFinset).card ≤ 1 := by
    calc ((items.map (fun i => domainOf i.url)).toFinset).card
        ≤ ({"unknown"} : Finset String).card := Finset.card_le_card hsub
      _ = 1 := Finset.card_singleton _
  have hlen := evidenceDomains_length items
  have hlt : ¬ (2 ≤ (evidenceDomains items).length) := by omega
  show decide (2 ≤ (evidenceDomains items).length) = false
  exact decide_eq_false hlt

/-- C10 counterexample: `" https://a.com"` does not start with
`http://` or `https://` followed by a non-empty host, yet `domain_of`
returns `"a.com"`, not `"unknown"` — the code strips whitespace before
matching, which the claim as stated does not account for. -/
theorem domain_of_not_startswith_cex :
    schemeHostShape " https://a.com" = false
      ∧ domainOf " https://a.com" = "a.com"
      ∧ ("a.com" : String) ≠ "unknown" := by
  refine ⟨by decide, by decide, by decide⟩

/-- C10 amended: for every string that, after Python `str.strip()`, does
not start with `http://` or `https://` followed by a non-empty host,
`domain_of` returns the constant `"unknown"`; consequently, in standard
mode, an evidence set all of whose items have such malformed URLs yields
at most one distinct domain and is always judged insufficient by
`_evidence_ok`, regardless of how many items it contains. -/
theorem domain_of_malformed_collapse :
    (∀ s : String, schemeHostShape (pyStrip s) = false → domainOf s = "unknown")
    ∧ (∀ items : List EvidenceItem,
        (∀ i ∈ items, schemeHostShape (pyStrip i.url) = false) →
        (evidenceOk false items).1 = false) := by
  refine ⟨fun s h => domainOf_eq_unknown_of_shape_false s h, fun items hall => ?_⟩
  exact evidenceOk_false_of_all_unknown items
    (fun i hi => domainOf_eq_unknown_of_shape_false i.url (hall i hi))

/-- Witness for `domain_of_malformed_collapse` at concrete inputs. -/
theorem domain_of_malformed_collapse_witness :
    domainOf "ftp://x" = "unknown"
      ∧ (evidenceOk false
          [⟨"notaurl", "t1", "2025-01-01", "x"⟩,
           ⟨"also not a url", "t2", "2025-01-02", "y"⟩]).1 = false := by
  constructor
  · exact domain_of_malformed_collapse.1 "ftp://x" (by decide)
  · exact domain_of_malformed_collapse.2 _ (by decide)

theorem digitChar_isDigit {n : Nat} (h : n < 10) :
    (Nat.digitChar n).isDigit = true := by
  interval_cases n <;> decide

theorem natCharsAux_digits :
    ∀ fuel n, n < fuel → ∀ c ∈ natCharsAux fuel n, c.isDigit = true := by
  intro fuel
  induction fuel with
  | zero => intro n h; omega
  | succ fuel ih =>
    intro n h c hc
    unfold natCharsAux at hc
    by_cases h10 : n < 10
    · rw [if_pos h10] at hc
      rcases List.mem_singleton.mp hc with rfl
      exact digitChar_isDigit h10
    · rw [if_neg h10] at hc
      rcases List.mem_append.mp hc with hc | hc
      · exact ih (n / 10) (by omega) c hc
      · rcases List.mem_singleton.mp hc with rfl
        exact digitChar_isDigit (Nat.mod_lt n (by omega))

theorem natChars_digits (n : Nat) : ∀ c ∈ natChars n, c.isDigit = true :=
  natCharsAux_digits (n + 1) n (Nat.lt_succ_self n)

theorem natCharsAux_length_le :
    ∀ fuel n k, n < fuel → n < 10 ^ k → 0 < k →
      (natCharsAux fuel n).length ≤ k := by
  intro fuel
  induction fuel with
  | zero => intro n k h; omega
  | succ fuel ih =>
    intro n k hfuel hk hk0
    unfold natCharsAux
    by_cases h10 : n < 10
    · rw [if_pos h10]; simpa using hk0
    · rw [if_neg h10]
      have hk2 : 2 ≤ k := by
        by_contra hlt
        have : k = 1 := by omega
        subst this
        simp at hk
        omega
      have hdiv : n / 10 < 10 ^ (k - 1) := by
        rw [Nat.div_lt_iff_lt_mul (by omega)]
        calc n < 10 ^ k := hk
          _ = 10 ^ (k - 1) * 10 := by
            rw [← pow_succ]
            congr 1
            omega
      have := ih (n / 10) (k - 1) (by omega) hdiv (by omega)
      simp only [List.length_append, List.length_cons, List.length_nil]
      omega

theorem natChars_length_le {n k : Nat} (hk : n < 10 ^ k) (hk0 : 0 < k) :
    (natChars n).length ≤ k :=
  natCharsAux_length_le (n + 1) n k (Nat.lt_succ_self n) hk hk0

theorem pad_length {w : Nat} {cs : List Char} (h : cs.length ≤ w) :
    (pad w cs).length = w := by
  simp only [pad, List.length_append, List.length_replicate]
  omega

theorem pad_digits {w : Nat} {cs : List Char}
    (h : ∀ c ∈ cs, c.isDigit = true) :
    ∀ c ∈ pad w cs, c.isDigit = true := by
  intro c hc
  rcases List.mem_append.mp hc with hc | hc
  · rcases List.eq_of_mem_replicate hc with rfl
    decide
  · exact h c hc

theorem exists_two_chars {cs : List Char} (h : cs.length = 2) :
    ∃ a b, cs = [a, b] := by
  match cs, h with
  | [a, b], _ => exact ⟨a, b, rfl⟩

theorem exists_four_chars {cs : List Char} (h : cs.length = 4) :
    ∃ a b c d, cs = [a, b, c, d] := by
  match cs, h with
  | [a, b, c, d], _ => exact ⟨a, b, c, d, rfl⟩

theorem isoOfDate_shape {d : CalDate} (h : validDate d = true) :
    dateShapeOk (isoOfDate d) = true := by
  have hy : d.year < 10 ^ 4 := by
    simp only [validDate, Bool.and_eq_true, decide_eq_true_eq] at h
    norm_num
    omega
  have hm : d.month < 10 ^ 2 := by
    simp only [validDate, Bool.and_eq_true, decide_eq_true_eq] at h
    norm_num
    omega
  have hd : d.day < 10 ^ 2 := by
    simp only [validDate, Bool.and_eq_true, decide_eq_true_eq] at h
    have h31 : daysInMonth d.year d.month ≤ 31 := by
      unfold daysInMonth
      split
      · split <;> omega
      · split <;> omega
    norm_num
    omega
  obtain ⟨a, b, c, dd, hy4⟩ :=
    exists_four_chars (pad_length (natChars_length_le hy (by norm_num)))
  obtain ⟨e, f, hm2⟩ :=
    exists_two_chars (pad_length (natChars_length_le hm (by norm_num)))
  obtain ⟨g, i, hd2⟩ :=
    exists_two_chars (pad_length (natChars_length_le hd (by norm_num)))
  have hydig := pad_digits (w := 4) (natChars_digits d.year)
  have hmdig := pad_digits (w := 2) (natChars_digits d.month)
  have hddig := pad_digits (w := 2) (natChars_digits d.day)
  rw [hy4] at hydig
  rw [hm2] at hmdig
  rw [hd2] at hddig
  show dateShapeOk ⟨pad 4 (natChars d.year) ++ '-' :: (pad 2 (natChars d.month) ++ '-' :: pad 2 (natChars d.day))⟩ = true
  rw [hy4, hm2, hd2]
  show (a.isDigit && b.isDigit && c.isDigit && dd.isDigit && ('-' == '-')
      && e.isDigit && f.isDigit && ('-' == '-') && g.isDigit && i.isDigit) = true
  simp only [Bool.and_eq_true, beq_self_eq_true, and_true, true_and]
  and_intros
  · exact hydig a (by simp)
  · exact hydig b (by simp)
  · exact hydig c (by simp)
  · exact hydig dd (by simp)
  · exact hmdig e (by simp)
  · exact hmdig f (by simp)
  · exact hddig g (by simp)
  · exact hddig i (by simp)

theorem weekDateOf_valid {y w d : Nat} {r : CalDate}
    (h : weekDateOf y w d = some r) : validDate r = true := by
  unfold weekDateOf at h
  split at h
  · split at h
    · rename_i hv
      cases h
      exact hv
    · exact absurd h (by simp)
  · exact absurd h (by simp)

theorem fromIso10_valid {s : String} {d : CalDate}
    (h : fromIso10 s = some d) : validDate d = true := by
  unfold fromIso10 at h
  split at h
  · split at h
    · exact weekDateOf_valid h
    · exact absurd h (by simp)
  · split at h
    · split at h
      · rename_i hv
        cases h
        exact hv
      · exact absurd h (by simp)
    · exact absurd h (by simp)
  · split at h
    · exact weekDateOf_valid h
    · exact absurd h (by simp)
  · split at h
    · exact weekDateOf_valid h
    · exact absurd h (by simp)
  · split at h
    · split at h
      · rename_i hv
        cases h
        exact hv
      · exact absurd h (by simp)
    · exact absurd h (by simp)
  · split at h
    · exact weekDateOf_valid h
    · exact absurd h (by simp)
  · exact absurd h (by simp)

/-- Counterexample to C8 as stated: `"2024-W01-3"` is ten characters
that are not a `YYYY-MM-DD` calendar date, yet `datetime.fromisoformat`
(which since Python 3.11 also accepts ISO week dates and the basic
`YYYYMMDD` form) parses it, so `_normalize_date` returns `"2024-01-03"`
— not the current date; likewise `"20241004"` normalizes to
`"2024-10-04"`. -/
theorem normalize_date_week_cex :
    dateShapeOk "2024-W01-3" = false
      ∧ normalizeDate ⟨2026, 10, 12⟩ "2024-W01-3" = "2024-01-03"
      ∧ normalizeDate ⟨2026, 10, 12⟩ "2024-W01-3" ≠ isoOfDate ⟨2026, 10, 12⟩
      ∧ dateShapeOk "20241004" = false
      ∧ normalizeDate ⟨2026, 10, 12⟩ "20241004" = "2024-10-04" := by
  refine ⟨by decide, by decide, by decide, by decide, by decide⟩

/-- C8 (amended): date normalization never fails ingestion — for every
raw published-date string whose first ten characters `fromisoformat`
rejects (in every accepted form: extended or basic calendar date, or ISO
week date), `_normalize_date` returns the current date; when they parse
(in any of those forms) it returns the parsed date's `YYYY-MM-DD`
isoformat; either way the result is the isoformat of a valid calendar
date, so every stored `published_at` is a valid date string. -/
theorem normalize_date_amended (today : CalDate) (s : String)
    (htoday : validDate today = true) :
    (fromIso10 ⟨s.data.take 10⟩ = none →
        normalizeDate today s = isoOfDate today)
    ∧ (∀ d, fromIso10 ⟨s.data.take 10⟩ = some d →
        validDate d = true ∧ normalizeDate today s = isoOfDate d)
    ∧ (∃ d, validDate d = true ∧ normalizeDate today s = isoOfDate d
        ∧ dateShapeOk (normalizeDate today s) = true) := by
  refine ⟨?_, ?_, ?_⟩
  · intro hnone
    unfold normalizeDate
    rw [hnone]
  · intro d hd
    refine ⟨fromIso10_valid hd, ?_⟩
    unfold normalizeDate
    rw [hd]
  · cases hp : fromIso10 ⟨s.data.take 10⟩ with
    | none =>
      refine ⟨today, htoday, ?_, ?_⟩
      · unfold normalizeDate; rw [hp]
      · unfold normalizeDate; rw [hp]; exact isoOfDate_shape htoday
    | some d =>
      have hv := fromIso10_valid hp
      refine ⟨d, hv, ?_, ?_⟩
      · unfold normalizeDate; rw [hp]
      · unfold normalizeDate; rw [hp]; exact isoOfDate_shape hv

/-- Witness for `normalize_date_amended`: the week date `"2024-W01-3"`
parses to January 3, 2024 and is returned in `YYYY-MM-DD` form, and the
unparsable `"2024-13-40"` falls back to the current date. -/
theorem normalize_date_amended_witness :
    (validDate ⟨2026, 10, 12⟩ = true
      ∧ validDate ⟨2024, 1, 3⟩ = true
      ∧ normalizeDate ⟨2026, 10, 12⟩ "2024-W01-3" = isoOfDate ⟨2024, 1, 3⟩)
    ∧ normalizeDate ⟨2026, 10, 12⟩ "2024-13-40" = isoOfDate ⟨2026, 10, 12⟩ := by
  refine ⟨⟨by decide, ?_, ?_⟩, ?_⟩
  · exact ((normalize_date_amended ⟨2026, 10, 12⟩ "2024-W01-3" (by decide)).2.1
      ⟨2024, 1, 3⟩ (by decide)).1
  · exact ((normalize_date_amended ⟨2026, 10, 12⟩ "2024-W01-3" (by decide)).2.1
      ⟨2024, 1, 3⟩ (by decide)).2
  · exact (normalize_date_amended ⟨2026, 10, 12⟩ "2024-13-40" (by decide)).1
      (by decide)

theorem hashUd_eq_iff {url t1 t2 : String} :
    hashUd url t1 = hashUd url t2 ↔ pyStrip t1 = pyStrip t2 := by
  constructor
  · intro h
    have hd := congrArg String.data h
    simp only [hashUd, String.data_append, List.append_assoc] at hd
    have h1 := List.append_cancel_left hd
    have h2 := List.append_cancel_left h1
    exact String.ext h2
  · intro h
    unfold hashUd
    rw [h]

theorem ingest_into_empty (url t p x : String) :
    ingestStep [] url t p x = [mkDoc url t p x] := rfl

theorem ingest_same_pair_skips (url t p1 p2 x1 x2 : String) :
    ingestStep [mkDoc url t p1 x1] url t p2 x2 = [mkDoc url t p1 x1] := by
  unfold ingestStep
  rw [if_pos]
  simp [existsUd, mkDoc]

theorem ingest_same_url_len (url t1 t2 p1 p2 x1 x2 : String) :
    (ingestStep [mkDoc url t1 p1 x1] url t2 p2 x2).length = 1 := by
  unfold ingestStep
  by_cases h : existsUd [mkDoc url t1 p1 x1] url t2
  · rw [if_pos h]; rfl
  · rw [if_neg h]
    simp [upsertDoc, mkDoc]

theorem ingest_same_url_replaces (url t1 t2 p1 p2 x1 x2 : String)
    (h : pyStrip t1 ≠ pyStrip t2) :
    ingestStep [mkDoc url t1 p1 x1] url t2 p2 x2 = [mkDoc url t2 p2 x2] := by
  have hne : hashUd url t1 ≠ hashUd url t2 := fun hh => h (hashUd_eq_iff.mp hh)
  unfold ingestStep
  rw [if_neg]
  · simp [upsertDoc, mkDoc]
  · simp only [existsUd, List.any_cons, List.any_nil, Bool.or_false, mkDoc,
      beq_iff_eq]
    simpa using hne

/-- C3 counterexample: ingesting `(url, "t1")` and then `(url, "t2")`
with distinct titles leaves ONE stored document, not two — `upsert_doc`
keys the row by `md5(url)` alone, so the second ingestion updates the
first row in place. -/
theorem ingest_soft_duplicate_cex :
    (ingestStep (ingestStep [] "https://a.example/x" "t1" "2026-01-01" "b1")
        "https://a.example/x" "t2" "2026-01-02" "b2").length = 1
      ∧ (ingestStep (ingestStep [] "https://a.example/x" "t1" "2026-01-01" "b1")
          "https://a.example/x" "t2" "2026-01-02" "b2").length ≠ 2 := by
  refine ⟨?_, ?_⟩ <;> decide

/-- C3 amended: ingesting the same `(url, title)` pair twice (dedup-key
check followed by upsert, starting from an empty store) leaves exactly
one stored document, the first one; ingesting `(url, title1)` and then
`(url, title2)` ALSO leaves exactly one stored document, because the row
key is derived from the URL alone — when the stripped titles differ the
dedup check does not fire and the upsert overwrites the row in place
with the second document's fields. -/
theorem ingest_dedup_amended :
    (∀ url t p1 p2 x1 x2 : String,
        ingestStep (ingestStep [] url t p1 x1) url t p2 x2
          = [mkDoc url t p1 x1]
        ∧ (ingestStep (ingestStep [] url t p1 x1) url t p2 x2).length = 1)
    ∧ (∀ url t1 t2 p1 p2 x1 x2 : String,
        (ingestStep (ingestStep [] url t1 p1 x1) url t2 p2 x2).length = 1)
    ∧ (∀ url t1 t2 p1 p2 x1 x2 : String, pyStrip t1 ≠ pyStrip t2 →
        ingestStep (ingestStep [] url t1 p1 x1) url t2 p2 x2
          = [mkDoc url t2 p2 x2]) := by
  refine ⟨fun url t p1 p2 x1 x2 => ?_, fun url t1 t2 p1 p2 x1 x2 => ?_,
    fun url t1 t2 p1 p2 x1 x2 h => ?_⟩
  · rw [ingest_into_empty]
    exact ⟨ingest_same_pair_skips url t p1 p2 x1 x2, by
      rw [ingest_same_pair_skips]; rfl⟩
  · rw [ingest_into_empty]
    exact ingest_same_url_len url t1 t2 p1 p2 x1 x2
  · rw [ingest_into_empty]
    exact ingest_same_url_replaces url t1 t2 p1 p2 x1 x2 h

/-- Witness for `ingest_dedup_amended` at concrete inputs. -/
theorem ingest_dedup_amended_witness :
    ingestStep (ingestStep [] "https://a.example/x" "t1" "2026-01-01" "b1")
        "https://a.example/x" "t2" "2026-01-02" "b2"
      = [mkDoc "https://a.example/x" "t2" "2026-01-02" "b2"] :=
  ingest_dedup_amended.2.2 "https://a.example/x" "t1" "t2"
    "2026-01-01" "2026-01-02" "b1" "b2" (by decide)

theorem likeMatchFuel_single_percent :
    ∀ fuel s, s.length + 1 < fuel → likeMatchFuel fuel ['%'] s = true := by
  intro fuel
  induction fuel with
  | zero => intro s h; omega
  | succ fuel ih =>
    intro s h
    cases s with
    | nil =>
      cases fuel with
      | zero => simp at h
      | succ fuel => simp [likeMatchFuel]
    | cons c s' =>
      simp only [likeMatchFuel]
      rw [ih s' (by simp only [List.length_cons] at h; omega)]
      simp

theorem likeMatchFuel_cons_nil_of_plain {k : Char} (hk1 : k ≠ '%')
    (hk2 : k ≠ '_') (fuel : Nat) (ks : List Char) :
    likeMatchFuel (fuel + 1) (k :: ks) [] = false := by
  simp [likeMatchFuel, hk1, hk2]

theorem likeMatchFuel_cons_cons_of_plain {k : Char} (hk1 : k ≠ '%')
    (hk2 : k ≠ '_') (fuel : Nat) (ks : List Char) (c : Char) (s' : List Char) :
    likeMatchFuel (fuel + 1) (k :: ks) (c :: s')
      = ((asciiLower k == asciiLower c) && likeMatchFuel fuel ks s') := by
  simp [likeMatchFuel, hk1, hk2]

theorem likeMatchFuel_plain_percent :
    ∀ kw fuel s, (∀ c ∈ kw, c ≠ '%' ∧ c ≠ '_') →
      kw.length + 1 + s.length < fuel →
      likeMatchFuel fuel (kw ++ ['%']) s = startsWithCI kw s := by
  intro kw
  induction kw with
  | nil =>
    intro fuel s _ h
    simpa [startsWithCI] using
      likeMatchFuel_single_percent fuel s (by simp at h; omega)
  | cons k ks ih =>
    intro fuel s hplain h
    obtain ⟨hk1, hk2⟩ := hplain k (by simp)
    cases fuel with
    | zero => simp at h
    | succ fuel =>
      cases s with
      | nil =>
        rw [List.cons_append, likeMatchFuel_cons_nil_of_plain hk1 hk2]
        rfl
      | cons c s' =>
        rw [List.cons_append, likeMatchFuel_cons_cons_of_plain hk1 hk2]
        rw [ih fuel s' (fun c hc => hplain c (by simp [hc]))
          (by simp only [List.length_cons, List.length_append] at h ⊢; omega)]
        by_cases hac : asciiLower k = asciiLower c
        · simp [startsWithCI, hac]
        · simp [startsWithCI, hac]

theorem likeMatchFuel_contains :
    ∀ s kw fuel, (∀ c ∈ kw, c ≠ '%' ∧ c ≠ '_') →
      kw.length + 2 + s.length < fuel →
      likeMatchFuel fuel ('%' :: (kw ++ ['%'])) s = containsCI kw s := by
  intro s
  induction s with
  | nil =>
    intro kw fuel hplain h
    cases fuel with
    | zero => simp at h
    | succ fuel =>
      simp only [likeMatchFuel]
      rw [likeMatchFuel_plain_percent kw fuel [] hplain (by omega)]
      simp [containsCI]
  | cons c s' ih =>
    intro kw fuel hplain h
    cases fuel with
    | zero => simp at h
    | succ fuel =>
      simp only [likeMatchFuel]
      rw [likeMatchFuel_plain_percent kw fuel (c :: s') hplain
        (by simp only [List.length_cons] at h ⊢; omega)]
      rw [ih kw fuel hplain (by simp only [List.length_cons] at h; omega)]
      rfl

/-- For a wildcard-free keyword, the `'%kw%'` `LIKE` pattern is exactly
the ASCII-case-insensitive substring test. -/
theorem likeMatch_contains_of_plain {kw s : List Char}
    (hplain : ∀ c ∈ kw, c ≠ '%' ∧ c ≠ '_') :
    likeMatch ('%' :: (kw ++ ['%'])) s = containsCI kw s := by
  unfold likeMatch
  apply likeMatchFuel_contains s kw _ hplain
  simp only [List.length_cons, List.length_append]
  omega

theorem char_lt_iff_toNat {a b : Char} : a < b ↔ a.toNat < b.toNat := by
  rw [Char.lt_def, UInt32.lt_def, BitVec.lt_def]
  exact Iff.rfl

theorem char_eq_of_toNat_eq {a b : Char} (h : a.toNat = b.toNat) : a = b :=
  Char.ext (UInt32.ext h)

theorem isDigit_toNat_bounds {c : Char} (h : c.isDigit = true) :
    48 ≤ c.toNat ∧ c.toNat ≤ 57 := by
  unfold Char.isDigit at h
  rw [Bool.and_eq_true, decide_eq_true_eq, decide_eq_true_eq] at h
  obtain ⟨h1, h2⟩ := h
  rw [ge_iff_le, UInt32.le_def, BitVec.le_def] at h1
  rw [UInt32.le_def, BitVec.le_def] at h2
  exact ⟨h1, h2⟩

theorem digitVal_lt_ten {c : Char} (h : c.isDigit = true) : digitVal c < 10 := by
  obtain ⟨h1, h2⟩ := isDigit_toNat_bounds h
  unfold digitVal
  omega

theorem digit_lt_iff {a b : Char} (ha : a.isDigit = true) (hb : b.isDigit = true) :
    a < b ↔ digitVal a < digitVal b := by
  obtain ⟨ha1, ha2⟩ := isDigit_toNat_bounds ha
  obtain ⟨hb1, hb2⟩ := isDigit_toNat_bounds hb
  rw [char_lt_iff_toNat]
  unfold digitVal
  omega

theorem digit_eq_iff {a b : Char} (ha : a.isDigit = true) (hb : b.isDigit = true) :
    a = b ↔ digitVal a = digitVal b := by
  constructor
  · intro h; rw [h]
  · intro h
    obtain ⟨ha1, ha2⟩ := isDigit_toNat_bounds ha
    obtain ⟨hb1, hb2⟩ := isDigit_toNat_bounds hb
    unfold digitVal at h
    exact char_eq_of_toNat_eq (by omega)

theorem digitsVal_lt_pow :
    ∀ cs : List Char, (∀ c ∈ cs, c.isDigit = true) →
      digitsVal cs < 10 ^ cs.length := by
  intro cs
  induction cs with
  | nil => intro _; simp [digitsVal]
  | cons c cs ih =>
    intro h
    have hc : digitVal c < 10 := digitVal_lt_ten (h c (by simp))
    have ht := ih (fun x hx => h x (by simp [hx]))
    simp only [digitsVal, List.length_cons, pow_succ]
    calc digitVal c * 10 ^ cs.length + digitsVal cs
        < digitVal c * 10 ^ cs.length + 10 ^ cs.length := by omega
      _ = (digitVal c + 1) * 10 ^ cs.length := by ring
      _ ≤ 10 * 10 ^ cs.length := Nat.mul_le_mul_right _ (by omega)
      _ = 10 ^ cs.length * 10 := by ring

theorem lex_not_of_head_gt {a b : Char} {as bs : List Char} (h : b < a) :
    ¬ List.Lex (· < ·) (a :: as) (b :: bs) := by
  intro hl
  cases hl with
  | cons h' => exact lt_irrefl _ h
  | rel h' => exact lt_irrefl _ (h.trans h')

theorem listLeChars_iff_not_lex :
    ∀ a b : List Char, listLeChars a b = true ↔ ¬ List.Lex (· < ·) b a := by
  intro a
  induction a with
  | nil =>
    intro b
    constructor
    · intro _ h
      exact List.Lex.not_nil_right _ _ h
    · intro _
      rfl
  | cons x xs ih =>
    intro b
    cases b with
    | nil =>
      constructor
      · intro h
        exact absurd h (by simp [listLeChars])
      · intro h
        exact absurd List.Lex.nil h
    | cons y ys =>
      unfold listLeChars
      by_cases hxy : x < y
      · rw [if_pos hxy]
        constructor
        · intro _
          exact lex_not_of_head_gt hxy
        · intro _
          rfl
      · rw [if_neg hxy]
        by_cases hyx : y < x
        · rw [if_pos hyx]
          constructor
          · intro h
            exact absurd h (by simp)
          · intro h
            exact absurd (List.Lex.rel hyx) h
        · rw [if_neg hyx]
          have hxy' : x = y := le_antisymm (le_of_not_lt hyx) (le_of_not_lt hxy)
          subst hxy'
          rw [ih ys]
          constructor
          · intro h hl
            exact h (List.Lex.cons_iff.mp hl)
          · intro h hl
            exact h (List.Lex.cons hl)

theorem strLe_iff {a b : String} : strLe a b = true ↔ a ≤ b := by
  rw [String.le_iff_toList_le]
  show listLeChars a.data b.data = true ↔ a.toList ≤ b.toList
  rw [listLeChars_iff_not_lex]
  rw [← not_lt]
  exact Iff.rfl

theorem lex_digit_iff :
    ∀ a b : List Char, a.length = b.length →
      (∀ c ∈ a, c.isDigit = true) → (∀ c ∈ b, c.isDigit = true) →
      (List.Lex (· < ·) a b ↔ digitsVal a < digitsVal b) := by
  intro a
  induction a with
  | nil =>
    intro b hlen _ _
    cases b with
    | nil => simp [digitsVal]
    | cons x xs => simp at hlen
  | cons a0 as ih =>
    intro b hlen hda hdb
    cases b with
    | nil => simp at hlen
    | cons b0 bs =>
      simp only [List.length_cons] at hlen
      have hlen' : as.length = bs.length := by omega
      have ha0 := hda a0 (by simp)
      have hb0 := hdb b0 (by simp)
      have hva := digitsVal_lt_pow as (fun c hc => hda c (by simp [hc]))
      have hvb := digitsVal_lt_pow bs (fun c hc => hdb c (by simp [hc]))
      rcases lt_trichotomy a0 b0 with hab | hab | hab
      · have hdv : digitVal a0 < digitVal b0 := (digit_lt_iff ha0 hb0).mp hab
        constructor
        · intro _
          simp only [digitsVal, hlen']
          calc digitVal a0 * 10 ^ bs.length + digitsVal as
              < digitVal a0 * 10 ^ bs.length + 10 ^ bs.length := by
                rw [← hlen']; omega
            _ = (digitVal a0 + 1) * 10 ^ bs.length := by ring
            _ ≤ digitVal b0 * 10 ^ bs.length := Nat.mul_le_mul_right _ (by omega)
            _ ≤ digitVal b0 * 10 ^ bs.length + digitsVal bs := by omega
        · intro _; exact List.Lex.rel hab
      · subst hab
        rw [List.Lex.cons_iff]
        rw [ih bs hlen' (fun c hc => hda c (by simp [hc]))
          (fun c hc => hdb c (by simp [hc]))]
        simp only [digitsVal, hlen']
        omega
      · have hdv : digitVal b0 < digitVal a0 := (digit_lt_iff hb0 ha0).mp hab
        constructor
        · intro hl; exact absurd hl (lex_not_of_head_gt hab)
        · intro hv
          exfalso
          simp only [digitsVal, hlen'] at hv
          have : digitVal b0 * 10 ^ bs.length + digitsVal bs
              < digitVal a0 * 10 ^ bs.length + digitsVal as := by
            calc digitVal b0 * 10 ^ bs.length + digitsVal bs
                < digitVal b0 * 10 ^ bs.length + 10 ^ bs.length := by omega
              _ = (digitVal b0 + 1) * 10 ^ bs.length := by ring
              _ ≤ digitVal a0 * 10 ^ bs.length := Nat.mul_le_mul_right _ (by omega)
              _ ≤ digitVal a0 * 10 ^ bs.length + digitsVal as := by omega
          omega

theorem lex_append_same_iff :
    ∀ (p a b : List Char),
      (List.Lex (· < ·) (p ++ a) (p ++ b) ↔ List.Lex (· < ·) a b) := by
  intro p
  induction p with
  | nil => intro a b; exact Iff.rfl
  | cons x p ih =>
    intro a b
    rw [List.cons_append, List.cons_append, List.Lex.cons_iff]
    exact ih a b

theorem lex_append_of_val_ne :
    ∀ (A B r1 r2 : List Char), A.length = B.length →
      (∀ c ∈ A, c.isDigit = true) → (∀ c ∈ B, c.isDigit = true) →
      digitsVal A ≠ digitsVal B →
      (List.Lex (· < ·) (A ++ r1) (B ++ r2) ↔ List.Lex (· < ·) A B) := by
  intro A
  induction A with
  | nil =>
    intro B r1 r2 hlen _ _ hne
    cases B with
    | nil => simp [digitsVal] at hne
    | cons x xs => simp at hlen
  | cons a0 as ih =>
    intro B r1 r2 hlen hda hdb hne
    cases B with
    | nil => simp at hlen
    | cons b0 bs =>
      simp only [List.length_cons] at hlen
      have hlen' : as.length = bs.length := by omega
      rcases lt_trichotomy a0 b0 with hab | hab | hab
      · constructor
        · intro _; exact List.Lex.rel hab
        · intro _; exact List.Lex.rel hab
      · subst hab
        rw [List.cons_append, List.cons_append, List.Lex.cons_iff,
          List.Lex.cons_iff]
        apply ih bs r1 r2 hlen' (fun c hc => hda c (by simp [hc]))
          (fun c hc => hdb c (by simp [hc]))
        intro hv
        apply hne
        simp only [digitsVal, hlen', hv]
      · constructor
        · intro hl; exact absurd hl (lex_not_of_head_gt hab)
        · intro hl; exact absurd hl (lex_not_of_head_gt hab)

theorem digitVal_digitChar {n : Nat} (h : n < 10) :
    digitVal (Nat.digitChar n) = n := by
  interval_cases n <;> decide

theorem digitsVal_append_single (xs : List Char) (c : Char) :
    digitsVal (xs ++ [c]) = digitsVal xs * 10 + digitVal c := by
  induction xs with
  | nil => simp [digitsVal]
  | cons x xs ih =>
    show digitVal x * 10 ^ (xs ++ [c]).length + digitsVal (xs ++ [c])
      = (digitVal x * 10 ^ xs.length + digitsVal xs) * 10 + digitVal c
    rw [ih, List.length_append]
    simp only [List.length_cons, List.length_nil, pow_succ]
    ring

theorem natCharsAux_val :
    ∀ fuel n, n < fuel → digitsVal (natCharsAux fuel n) = n := by
  intro fuel
  induction fuel with
  | zero => intro n h; omega
  | succ fuel ih =>
    intro n h
    unfold natCharsAux
    by_cases h10 : n < 10
    · rw [if_pos h10]
      simp [digitsVal, digitVal_digitChar h10]
    · rw [if_neg h10]
      rw [digitsVal_append_single, ih (n / 10) (by omega),
        digitVal_digitChar (Nat.mod_lt n (by omega))]
      omega

theorem natChars_val (n : Nat) : digitsVal (natChars n) = n :=
  natCharsAux_val (n + 1) n (Nat.lt_succ_self n)

theorem digitsVal_replicate_zero_append :
    ∀ (k : Nat) (cs : List Char),
      digitsVal (List.replicate k '0' ++ cs) = digitsVal cs := by
  intro k
  induction k with
  | zero => intro cs; rfl
  | succ k ih =>
    intro cs
    rw [List.replicate_succ, List.cons_append]
    simp only [digitsVal, ih]
    have h0 : digitVal '0' = 0 := rfl
    rw [h0]
    ring

theorem digitsVal_pad (w : Nat) (cs : List Char) :
    digitsVal (pad w cs) = digitsVal cs :=
  digitsVal_replicate_zero_append (w - cs.length) cs

theorem pad_natChars_val (w n : Nat) : digitsVal (pad w (natChars n)) = n := by
  rw [digitsVal_pad, natChars_val]

theorem validDate_bounds {d : CalDate} (h : validDate d = true) :
    1 ≤ d.year ∧ d.year ≤ 9999 ∧ 1 ≤ d.month ∧ d.month ≤ 12
      ∧ 1 ≤ d.day ∧ d.day ≤ 31 := by
  simp only [validDate, Bool.and_eq_true, decide_eq_true_eq] at h
  have h31 : daysInMonth d.year d.month ≤ 31 := by
    unfold daysInMonth
    split
    · split <;> omega
    · split <;> omega
  omega

theorem yearBlock_length {y : Nat} (h : y ≤ 9999) :
    (pad 4 (natChars y)).length = 4 :=
  pad_length (natChars_length_le (by norm_num; omega) (by norm_num))

theorem twoBlock_length {n : Nat} (h : n ≤ 99) :
    (pad 2 (natChars n)).length = 2 :=
  pad_length (natChars_length_le (by norm_num; omega) (by norm_num))

theorem isoOfDate_lt_iff {a b : CalDate}
    (ha : validDate a = true) (hb : validDate b = true) :
    (isoOfDate a < isoOfDate b) ↔ dateLT a b := by
  obtain ⟨hay1, hay2, ham1, ham2, had1, had2⟩ := validDate_bounds ha
  obtain ⟨hby1, hby2, hbm1, hbm2, hbd1, hbd2⟩ := validDate_bounds hb
  rw [String.lt_iff_toList_lt]
  show List.Lex (· < ·)
      (pad 4 (natChars a.year)
        ++ '-' :: (pad 2 (natChars a.month) ++ '-' :: pad 2 (natChars a.day)))
      (pad 4 (natChars b.year)
        ++ '-' :: (pad 2 (natChars b.month) ++ '-' :: pad 2 (natChars b.day)))
    ↔ dateLT a b
  by_cases hy : a.year = b.year
  · have hYeq : pad 4 (natChars a.year) = pad 4 (natChars b.year) := by rw [hy]
    rw [hYeq, lex_append_same_iff, List.Lex.cons_iff]
    by_cases hm : a.month = b.month
    · have hMeq : pad 2 (natChars a.month) = pad 2 (natChars b.month) := by
        rw [hm]
      rw [hMeq, lex_append_same_iff, List.Lex.cons_iff]
      rw [lex_digit_iff _ _
        (by rw [twoBlock_length (by omega), twoBlock_length (by omega)])
        (pad_digits (natChars_digits a.day)) (pad_digits (natChars_digits b.day))]
      rw [pad_natChars_val, pad_natChars_val]
      unfold dateLT
      omega
    · rw [lex_append_of_val_ne _ _ _ _
        (by rw [twoBlock_length (by omega), twoBlock_length (by omega)])
        (pad_digits (natChars_digits a.month))
        (pad_digits (natChars_digits b.month))
        (by rw [pad_natChars_val, pad_natChars_val]; exact hm)]
      rw [lex_digit_iff _ _
        (by rw [twoBlock_length (by omega), twoBlock_length (by omega)])
        (pad_digits (natChars_digits a.month))
        (pad_digits (natChars_digits b.month))]
      rw [pad_natChars_val, pad_natChars_val]
      unfold dateLT
      omega
  · rw [lex_append_of_val_ne _ _ _ _
      (by rw [yearBlock_length (by omega), yearBlock_length (by omega)])
      (pad_digits (natChars_digits a.year))
      (pad_digits (natChars_digits b.year))
      (by rw [pad_natChars_val, pad_natChars_val]; exact hy)]
    rw [lex_digit_iff _ _
      (by rw [yearBlock_length (by omega), yearBlock_length (by omega)])
      (pad_digits (natChars_digits a.year))
      (pad_digits (natChars_digits b.year))]
    rw [pad_natChars_val, pad_natChars_val]
    unfold dateLT
    omega

theorem isoOfDate_le_iff {a b : CalDate}
    (ha : validDate a = true) (hb : validDate b = true) :
    (isoOfDate a ≤ isoOfDate b) ↔ dateLE a b := by
  rw [← not_lt, isoOfDate_lt_iff hb ha]
  obtain ⟨ay, am, ad⟩ := a
  obtain ⟨by', bm, bd⟩ := b
  unfold dateLE dateLT
  simp only [CalDate.mk.injEq]
  omega

theorem insertDesc_perm (d : Doc) (l : List Doc) :
    (insertDesc d l).Perm (d :: l) := by
  induction l with
  | nil => exact List.Perm.refl _
  | cons e es ih =>
    unfold insertDesc
    by_cases h : strLe d.published_at e.published_at = true
    · rw [if_pos h]
      exact (ih.cons e).trans (List.Perm.swap d e es)
    · rw [if_neg h]

theorem sortDescByDate_perm (l : List Doc) : (sortDescByDate l).Perm l := by
  induction l with
  | nil => exact List.Perm.refl _
  | cons d ds ih => exact (insertDesc_perm d _).trans (ih.cons d)

theorem mem_insertDesc {x d : Doc} {l : List Doc} :
    x ∈ insertDesc d l ↔ x = d ∨ x ∈ l := by
  rw [(insertDesc_perm d l).mem_iff]
  simp

theorem mem_sortDescByDate {x : Doc} {l : List Doc} :
    x ∈ sortDescByDate l ↔ x ∈ l :=
  (sortDescByDate_perm l).mem_iff

theorem pairwise_insertDesc {d : Doc} {l : List Doc}
    (h : l.Pairwise (fun a b => b.published_at ≤ a.published_at)) :
    (insertDesc d l).Pairwise (fun a b => b.published_at ≤ a.published_at) := by
  induction l with
  | nil => simp [insertDesc]
  | cons e es ih =>
    rw [List.pairwise_cons] at h
    obtain ⟨he, hes⟩ := h
    unfold insertDesc
    by_cases hde : strLe d.published_at e.published_at = true
    · rw [if_pos hde]
      rw [List.pairwise_cons]
      refine ⟨?_, ih hes⟩
      intro x hx
      rcases mem_insertDesc.mp hx with rfl | hx
      · exact strLe_iff.mp hde
      · exact he x hx
    · rw [if_neg hde]
      rw [List.pairwise_cons]
      have hed : e.published_at ≤ d.published_at :=
        le_of_not_le (fun hc => hde (strLe_iff.mpr hc))
      refine ⟨?_, List.pairwise_cons.mpr ⟨he, hes⟩⟩
      intro x hx
      rcases List.mem_cons.mp hx with rfl | hx
      · exact hed
      · exact (he x hx).trans hed

theorem pairwise_sortDescByDate (l : List Doc) :
    (sortDescByDate l).Pairwise (fun a b => b.published_at ≤ a.published_at) := by
  induction l with
  | nil => simp [sortDescByDate]
  | cons d ds ih => exact pairwise_insertDesc ih

theorem listAny_congr {α : Type} {l : List α} {f g : α → Bool}
    (h : ∀ x ∈ l, f x = g x) : l.any f = l.any g := by
  induction l with
  | nil => rfl
  | cons a l ih =>
    simp only [List.any_cons, h a (by simp),
      ih (fun x hx => h x (by simp [hx]))]

theorem docMatchesKw_eq_ascii {kw : String} (d : Doc)
    (h : wildcardFree kw = true) :
    docMatchesKw kw d = kwMatchAsciiCI kw d := by
  have hplain : ∀ c ∈ kw.data, c ≠ '%' ∧ c ≠ '_' := by
    intro c hc
    have hc' := List.all_eq_true.mp h c hc
    rw [Bool.and_eq_true, decide_eq_true_eq, decide_eq_true_eq] at hc'
    exact hc'
  unfold docMatchesKw kwMatchAsciiCI
  rw [likeMatch_contains_of_plain hplain, likeMatch_contains_of_plain hplain]

theorem recentDocs_eq_spec (table : List Doc) (kws : List String) (days : Nat)
    (today : CalDate) (hkw : ∀ kw ∈ kws, wildcardFree kw = true) :
    recentDocsKeywords table kws days today
      = (sortDescByDate (table.filter
          (docPasses (isoOfDate (dateSubDays today days)) kws))).take 500 := by
  simp only [recentDocsKeywords]
  by_cases he : kws.isEmpty
  · rw [if_pos he]
    congr 1
    congr 1
    apply List.filter_congr
    intro d _
    unfold docPasses
    rw [he]
    simp
  · rw [if_neg he]
    have he' : kws.isEmpty = false := Bool.eq_false_iff.mpr he
    congr 1
    congr 1
    rw [List.filter_filter]
    apply List.filter_congr
    intro d _
    unfold docPasses
    rw [listAny_congr (fun kw hkw' => docMatchesKw_eq_ascii d (hkw kw hkw'))]
    rw [he']
    simp [Bool.and_comm]

/-- C5 counterexample: SQLite `LIKE` folds case only for ASCII letters,
so keyword matching is case-sensitive for Cyrillic: the stored document
titled `"Кофе"`, inside the window, is NOT returned for the keyword
`"кофе"` although it matches case-insensitively — the claim's
unqualified "case-insensitively" fails on the code. -/
theorem recent_docs_cyrillic_cex :
    recentDocsKeywords [cexDoc] ["кофе"] 90 ⟨2026, 10, 12⟩ = []
      ∧ kwMatchUnicodeCI "кофе" cexDoc = true
      ∧ strLe (isoOfDate (dateSubDays ⟨2026, 10, 12⟩ 90)) cexDoc.published_at
          = true := by
  refine ⟨by decide, by decide, by decide⟩

/-- C5 amended: for wildcard-free keywords, `recent_docs_keywords`
returns exactly the stored documents whose `published_at` is on or after
`today - window_days` (dates being normalized ISO strings, the SQL
string comparison coincides with calendar order) and, when the keyword
list is non-empty, that match at least one keyword
ASCII-case-insensitively (not Unicode-case-insensitively) in title or
body text; an empty keyword list matches every document in the window;
the result is ordered by `published_at` descending and holds at most
500 documents (exhaustive whenever at most 500 qualify). -/
theorem recent_docs_keywords_spec (table : List Doc) (keywords : List String)
    (days : Nat) (today : CalDate)
    (hkw : ∀ kw ∈ keywords, wildcardFree kw = true)
    (hsince : validDate (dateSubDays today days) = true)
    (hdates : ∀ d ∈ table, ∃ dd, validDate dd = true
        ∧ d.published_at = isoOfDate dd) :
    (∀ d ∈ recentDocsKeywords table keywords days today,
        d ∈ table
        ∧ (∃ dd, validDate dd = true ∧ d.published_at = isoOfDate dd
            ∧ dateLE (dateSubDays today days) dd)
        ∧ (keywords = []
            ∨ ∃ kw ∈ keywords, kwMatchAsciiCI kw d = true))
    ∧ (recentDocsKeywords table keywords days today).Pairwise
        (fun a b => b.published_at ≤ a.published_at)
    ∧ (recentDocsKeywords table keywords days today).length ≤ 500
    ∧ ((table.filter
          (docPasses (isoOfDate (dateSubDays today days)) keywords)).length
            ≤ 500 →
        ∀ d ∈ table,
          (docPasses (isoOfDate (dateSubDays today days)) keywords d = true
            ↔ d ∈ recentDocsKeywords table keywords days today)) := by
  rw [recentDocs_eq_spec table keywords days today hkw]
  refine ⟨?_, ?_, ?_, ?_⟩
  · intro d hd
    have hd2 : d ∈ table.filter
        (docPasses (isoOfDate (dateSubDays today days)) keywords) :=
      mem_sortDescByDate.mp (List.mem_of_mem_take hd)
    rw [List.mem_filter] at hd2
    obtain ⟨hmem, hpass⟩ := hd2
    unfold docPasses at hpass
    rw [Bool.and_eq_true] at hpass
    obtain ⟨hwin, hkwpass⟩ := hpass
    refine ⟨hmem, ?_, ?_⟩
    · obtain ⟨dd, hvdd, hpub⟩ := hdates d hmem
      have hle : isoOfDate (dateSubDays today days) ≤ d.published_at :=
        strLe_iff.mp hwin
      rw [hpub] at hle
      exact ⟨dd, hvdd, hpub, (isoOfDate_le_iff hsince hvdd).mp hle⟩
    · by_cases hk0 : keywords = []
      · exact Or.inl hk0
      · right
        rw [Bool.or_eq_true] at hkwpass
        rcases hkwpass with hemp | hany
        · exact absurd (List.isEmpty_iff.mp hemp) hk0
        · obtain ⟨kw, hkmem, hkm⟩ := List.any_eq_true.mp hany
          exact ⟨kw, hkmem, hkm⟩
  · exact (pairwise_sortDescByDate _).sublist (List.take_sublist _ _)
  · exact List.length_take_le _ _
  · intro hlen d hdmem
    have hslen : (sortDescByDate (table.filter
        (docPasses (isoOfDate (dateSubDays today days)) keywords))).length
          ≤ 500 := by
      rw [(sortDescByDate_perm _).length_eq]
      exact hlen
    rw [List.take_of_length_le hslen]
    constructor
    · intro hpass
      exact mem_sortDescByDate.mpr (List.mem_filter.mpr ⟨hdmem, hpass⟩)
    · intro hmem
      exact (List.mem_filter.mp (mem_sortDescByDate.mp hmem)).2

/-- Witness for `recent_docs_keywords_spec` at concrete inputs. -/
theorem recent_docs_keywords_spec_witness :
    (recentDocsKeywords [sampleDoc] ["coffee"] 90 ⟨2026, 10, 12⟩).length ≤ 500 := by
  refine (recent_docs_keywords_spec [sampleDoc] ["coffee"] 90 ⟨2026, 10, 12⟩
    ?_ ?_ ?_).2.2.1
  · intro kw hkw
    rcases List.mem_singleton.mp hkw with rfl
    decide
  · decide
  · intro d hd
    rcases List.mem_singleton.mp hd with rfl
    exact ⟨⟨2026, 10, 1⟩, by decide, by decide⟩

theorem dictFind_append_left {fs gs : List (String × JValue)} {k : String}
    {w : JValue} (h : dictFind fs k = some w) :
    dictFind (fs ++ gs) k = some w := by
  induction fs with
  | nil => simp [dictFind] at h
  | cons p rest ih =>
    obtain ⟨k', v⟩ := p
    rw [List.cons_append]
    simp only [dictFind] at h ⊢
    by_cases hk : k' = k
    · rw [if_pos hk] at h ⊢
      exact h
    · rw [if_neg hk] at h ⊢
      exact ih h

theorem dictFind_append_right {fs gs : List (String × JValue)} {k : String}
    (h : dictFind fs k = none) :
    dictFind (fs ++ gs) k = dictFind gs k := by
  induction fs with
  | nil => rfl
  | cons p rest ih =>
    obtain ⟨k', v⟩ := p
    rw [List.cons_append]
    simp only [dictFind] at h ⊢
    by_cases hk : k' = k
    · rw [if_pos hk] at h
      exact absurd h (by simp)
    · rw [if_neg hk] at h ⊢
      exact ih h

theorem dictFind_setdefault_self_absent {fs : List (String × JValue)}
    {k : String} {v : JValue} (h : dictFind fs k = none) :
    dictFind (dictSetdefault fs k v) k = some v := by
  unfold dictSetdefault
  rw [h]
  simp only [Option.isSome_none, Bool.false_eq_true, if_false]
  rw [dictFind_append_right h]
  simp [dictFind]

theorem dictFind_setdefault_preserve {fs : List (String × JValue)}
    {k k' : String} {v w : JValue} (h : dictFind fs k = some w) :
    dictFind (dictSetdefault fs k' v) k = some w := by
  unfold dictSetdefault
  by_cases hp : (dictFind fs k').isSome
  · rw [if_pos hp]
    exact h
  · rw [if_neg hp]
    exact dictFind_append_left h

theorem dictFind_setdefault_other {fs : List (String × JValue)}
    {k k' : String} {v : JValue} (hk : k' ≠ k)
    (h : dictFind fs k = none) :
    dictFind (dictSetdefault fs k' v) k = none := by
  unfold dictSetdefault
  by_cases hp : (dictFind fs k').isSome
  · rw [if_pos hp]
    exact h
  · rw [if_neg hp]
    rw [dictFind_append_right h]
    simp [dictFind, hk]

/-- C7 counterexample: a query whose `domain` is present but equal to
the empty string keeps the empty string — `setdefault` only fills
absent keys, so the claim's "absent or the empty string" fails on the
empty-string half. -/
theorem validator_in_empty_domain_cex :
    dictFind (runVIn [("domain", .str "")]) "domain" = some (.str "")
      ∧ (some (JValue.str "") ≠ some (JValue.str "general")) := by
  refine ⟨rfl, by simp⟩

/-- C7 amended: the pre-validator's defaulting is `setdefault`: `domain`
becomes `"general"` only when ABSENT (a present empty string is left
unchanged), `location` defaults to the fixed locale string when absent,
`details` defaults to the empty string when absent; every field already
present — empty or not — is left unchanged. -/
theorem validator_in_defaults (uq : List (String × JValue)) :
    (dictFind uq "domain" = none →
        dictFind (runVIn uq) "domain" = some (.str "general"))
    ∧ (∀ v, dictFind uq "domain" = some v →
        dictFind (runVIn uq) "domain" = some v)
    ∧ (dictFind uq "location" = none →
        dictFind (runVIn uq) "location" = some (.str "Москва/Россия"))
    ∧ (∀ v, dictFind uq "location" = some v →
        dictFind (runVIn uq) "location" = some v)
    ∧ (dictFind uq "details" = none →
        dictFind (runVIn uq) "details" = some (.str ""))
    ∧ (∀ v, dictFind uq "details" = some v →
        dictFind (runVIn uq) "details" = some v) := by
  unfold runVIn
  refine ⟨?_, ?_, ?_, ?_, ?_, ?_⟩
  · intro h
    exact dictFind_setdefault_preserve (dictFind_setdefault_preserve
      (dictFind_setdefault_self_absent h))
  · intro v h
    exact dictFind_setdefault_preserve (dictFind_setdefault_preserve
      (dictFind_setdefault_preserve h))
  · intro h
    exact dictFind_setdefault_preserve (dictFind_setdefault_self_absent
      (dictFind_setdefault_other (by decide) h))
  · intro v h
    exact dictFind_setdefault_preserve (dictFind_setdefault_preserve
      (dictFind_setdefault_preserve h))
  · intro h
    exact dictFind_setdefault_self_absent
      (dictFind_setdefault_other (by decide)
        (dictFind_setdefault_other (by decide) h))
  · intro v h
    exact dictFind_setdefault_preserve (dictFind_setdefault_preserve
      (dictFind_setdefault_preserve h))

/-- Witness for `validator_in_defaults`: the empty query gets all three
defaults. -/
theorem validator_in_defaults_witness :
    dictFind (runVIn []) "domain" = some (.str "general")
      ∧ dictFind (runVIn []) "location" = some (.str "Москва/Россия")
      ∧ dictFind (runVIn []) "details" = some (.str "") :=
  ⟨(validator_in_defaults []).1 rfl,
   (validator_in_defaults []).2.2.1 rfl,
   (validator_in_defaults []).2.2.2.2.1 rfl⟩

theorem except_bind_ok {α β : Type} (a : α) (f : α → Except PyErr β) :
    ((Except.ok a : Except PyErr α) >>= f) = f a := rfl

theorem except_bind_pure_eq_map {α β : Type} (e : Except PyErr α)
    (f : α → β) : (e >>= fun a => pure (f a)) = e.map f := by
  cases e <;> rfl

/-- C2: when the retrieved evidence fails the gate in standard mode,
`RetrievalSynthesisAgent.run` returns exactly the fixed refusal payload
(`idea` empty, all list fields empty, `evidence` the single fixed
advisory string — the serialized `refusalObj`), makes no generation
call, and its result is independent of the Generator's behaviour. -/
theorem run_refusal_short_circuit (today : CalDate) (table : List Doc)
    (uq : List (String × JValue)) (gen1 gen2 : String)
    (items : List EvidenceItem)
    (hitems : searchItems table today (dictGetD uq "domain" (.str ""))
      = .ok items)
    (hgate : (evidenceOk false items).1 = false) :
    runRS false today table gen1 uq = .ok (jsonDumps refusalObj, false)
      ∧ runRS false today table gen1 uq = runRS false today table gen2 uq := by
  have hrun : ∀ g : String,
      runRS false today table g uq = .ok (jsonDumps refusalObj, false) := by
    intro g
    unfold runRS
    rw [hitems, except_bind_ok, hgate]
    rfl
  exact ⟨hrun gen1, (hrun gen1).trans (hrun gen2).symm⟩

/-- Witness for `run_refusal_short_circuit`: the empty corpus yields no
evidence, the gate fails, and the refusal payload is returned without a
generation call. -/
theorem run_refusal_short_circuit_witness :
    runRS false ⟨2026, 10, 12⟩ [] "any generator output" []
      = .ok (jsonDumps refusalObj, false) :=
  (run_refusal_short_circuit ⟨2026, 10, 12⟩ [] [] "any generator output"
    "other output" [] rfl rfl).1

/-- C6 counterexample: with the gate passing, the raw generation text
`"[1]"` parses to a truthy NON-dictionary value, and `run` returns it
serialized as-is instead of the local fallback — the claim's
"not dictionary-shaped ⇒ fallback" fails on the code, which tests
truthiness, not dict-shape. -/
theorem run_nondict_passthrough_cex :
    runRS false ⟨2026, 10, 12⟩ [sampleDoc, cexDoc] "[1]" []
        = .ok ("[1]", true)
      ∧ jsonOrRepair "[1]" = some (.arr [.num 1])
      ∧ isDict (.arr [.num 1]) = false
      ∧ pyTruthy (.arr [.num 1]) = true
      ∧ ((localFallback []
            ((searchItems [sampleDoc, cexDoc] ⟨2026, 10, 12⟩
              (dictGetD [] "domain" (.str ""))).toOption.getD [])).map
          jsonDumps).toOption.getD "" ≠ "[1]" := by
  refine ⟨rfl, rfl, rfl, rfl, by decide⟩

/-- C6 amended: with the evidence gate passing, `run` returns the
deterministic local fallback exactly when `_json_or_repair` yields no
value (both the direct parse and the brace-substring parse fail) or a
FALSY parsed value (`None`, `{}`, `[]`, `""`, `0`, `false`); a truthy
parsed value — dictionary-shaped or not — is serialized and returned
as-is. -/
theorem run_fallback_on_falsy (relax : Bool) (today : CalDate)
    (table : List Doc) (uq : List (String × JValue)) (genText : String)
    (items : List EvidenceItem)
    (hitems : searchItems table today (dictGetD uq "domain" (.str ""))
      = .ok items)
    (hgate : (evidenceOk relax items).1 = true) :
    ((jsonOrRepair genText = none
        ∨ ∃ v, jsonOrRepair genText = some v ∧ pyTruthy v = false) →
      runRS relax today table genText uq
        = (localFallback uq items).map (fun v => (jsonDumps v, true)))
    ∧ (∀ v, jsonOrRepair genText = some v → pyTruthy v = true →
        runRS relax today table genText uq = .ok (jsonDumps v, true)) := by
  constructor
  · intro hfal
    unfold runRS
    rw [hitems, except_bind_ok, hgate]
    rcases hfal with hnone | ⟨v, hv, hfalse⟩
    · rw [hnone]
      exact except_bind_pure_eq_map _ _
    · rw [hv]
      simp only [hfalse]
      exact except_bind_pure_eq_map _ _
  · intro v hv htr
    unfold runRS
    rw [hitems, except_bind_ok, hgate, hv]
    simp only [htr]
    rfl

/-- Witness for `run_fallback_on_falsy`: unparseable generator output
over a two-domain corpus produces the serialized local fallback. -/
theorem run_fallback_on_falsy_witness :
    runRS false ⟨2026, 10, 12⟩ [sampleDoc, cexDoc] "no json here" []
      = (localFallback []
          ((searchItems [sampleDoc, cexDoc] ⟨2026, 10, 12⟩
            (dictGetD [] "domain" (.str ""))).toOption.getD [])).map
        (fun v => (jsonDumps v, true)) := by
  refine (run_fallback_on_falsy false ⟨2026, 10, 12⟩ [sampleDoc, cexDoc]
    [] "no json here" _ rfl rfl).1 (Or.inl rfl)

/-- C1: the output repair stage is NOT total.  `json.loads("[]")`
succeeds and returns a list, and `obj.setdefault(...)` then raises
`AttributeError` — `ValidatorOutAgent.run("[]")` raises instead of
returning the seven-key object the claim (and the spec's totality
guarantee) promises.  A second failing family: a dict input whose
`90_day_plan` contains an uncoercible `week` value raises from
`int(...)`, e.g. `{"90_day_plan": [{"week": [], "tasks": ["a"]}]}`. -/
theorem validator_out_crashes_on_list :
    runVOut ⟨2026, 10, 12⟩ "[]" = .error .attributeError
      ∧ jsonLoads "[]" = some (.arr [])
      ∧ runVOut ⟨2026, 10, 12⟩
          "\x7b\"90_day_plan\": [\x7b\"week\": [], \"tasks\": [\"a\"]\x7d]\x7d"
        = .error .typeError :=
  ⟨rfl, rfl, rfl⟩

theorem hexDigVal_digitChar : ∀ k, k < 16 → hexDigVal (Nat.digitChar k) = some k := by
  decide

theorem parseStringBody_escape :
    ∀ cs rest, parseStringBody (escapeChars cs ++ '"' :: rest) = some (cs, rest) := by
  intro cs
  induction cs with
  | nil => intro rest; rfl
  | cons c cs ih =>
    intro rest
    rw [show escapeChars (c :: cs) = escapeChar c ++ escapeChars cs from rfl,
      List.append_assoc]
    unfold escapeChar
    by_cases h1 : c = '"'
    · subst h1
      rw [if_pos rfl]
      show parseStringBody ('\\' :: '"' :: (escapeChars cs ++ '"' :: rest)) = _
      simp [parseStringBody, decodeEsc, ih]
    · rw [if_neg h1]
      by_cases h2 : c = '\\'
      · subst h2
        rw [if_pos rfl]
        show parseStringBody ('\\' :: '\\' :: (escapeChars cs ++ '"' :: rest)) = _
        simp [parseStringBody, decodeEsc, ih]
      · rw [if_neg h2]
        by_cases h3 : c = '\n'
        · subst h3
          rw [if_pos rfl]
          show parseStringBody ('\\' :: 'n' :: (escapeChars cs ++ '"' :: rest)) = _
          simp [parseStringBody, decodeEsc, ih]
        · rw [if_neg h3]
          by_cases h4 : c = '\r'
          · subst h4
            rw [if_pos rfl]
            show parseStringBody ('\\' :: 'r' :: (escapeChars cs ++ '"' :: rest)) = _
            simp [parseStringBody, decodeEsc, ih]
          · rw [if_neg h4]
            by_cases h5 : c = '\t'
            · subst h5
              rw [if_pos rfl]
              show parseStringBody
                ('\\' :: 't' :: (escapeChars cs ++ '"' :: rest)) = _
              simp [parseStringBody, decodeEsc, ih]
            · rw [if_neg h5]
              by_cases h6 : c = '\x08'
              · subst h6
                rw [if_pos rfl]
                show parseStringBody
                  ('\\' :: 'b' :: (escapeChars cs ++ '"' :: rest)) = _
                simp [parseStringBody, decodeEsc, ih]
              · rw [if_neg h6]
                by_cases h7 : c = '\x0c'
                · subst h7
                  rw [if_pos rfl]
                  show parseStringBody
                    ('\\' :: 'f' :: (escapeChars cs ++ '"' :: rest)) = _
                  simp [parseStringBody, decodeEsc, ih]
                · rw [if_neg h7]
                  by_cases h8 : c.toNat < 32
                  · rw [if_pos h8]
                    have e1 : c.toNat / 4096 % 16 = 0 := by omega
                    have e2 : c.toNat / 256 % 16 = 0 := by omega
                    have e3 : c.toNat / 16 % 16 < 16 := by omega
                    have e4 : c.toNat % 16 < 16 := by omega
                    show parseStringBody
                      ('\\' :: 'u' :: (hex4 c.toNat ++ (escapeChars cs ++ '"' :: rest))) = _
                    rw [show hex4 c.toNat
                      = [Nat.digitChar (c.toNat / 4096 % 16),
                         Nat.digitChar (c.toNat / 256 % 16),
                         Nat.digitChar (c.toNat / 16 % 16),
                         Nat.digitChar (c.toNat % 16)] from rfl, e1, e2]
                    show parseStringBody
                      ('\\' :: 'u' :: Nat.digitChar 0 :: Nat.digitChar 0
                        :: Nat.digitChar (c.toNat / 16 % 16)
                        :: Nat.digitChar (c.toNat % 16)
                        :: (escapeChars cs ++ '"' :: rest)) = _
                    simp only [parseStringBody]
                    rw [hexDigVal_digitChar 0 (by omega),
                      hexDigVal_digitChar _ e3, hexDigVal_digitChar _ e4]
                    have hv : ((0 * 16 + 0) * 16 + c.toNat / 16 % 16) * 16
                        + c.toNat % 16 = c.toNat := by omega
                    show Option.map
                      (fun p => (Char.ofNat (((0 * 16 + 0) * 16
                        + c.toNat / 16 % 16) * 16 + c.toNat % 16) :: p.1, p.2))
                      (parseStringBody (escapeChars cs ++ '"' :: rest))
                      = some (c :: cs, rest)
                    rw [hv, Char.ofNat_toNat, ih]
                    rfl
                  · rw [if_neg h8]
                    show parseStringBody
                      (c :: (escapeChars cs ++ '"' :: rest)) = _
                    simp [parseStringBody, h1, h2, ih]

theorem natCharsAux_ne_nil : ∀ fuel n, n < fuel → natCharsAux fuel n ≠ [] := by
  intro fuel n h
  cases fuel with
  | zero => omega
  | succ fuel =>
    unfold natCharsAux
    by_cases h10 : n < 10
    · rw [if_pos h10]; simp
    · rw [if_neg h10]; simp

theorem natChars_ne_nil (n : Nat) : natChars n ≠ [] :=
  natCharsAux_ne_nil (n + 1) n (Nat.lt_succ_self n)

theorem not_ws_of_digit {c : Char} (h : c.isDigit = true) :
    isJsonWs c = false := by
  obtain ⟨h1, h2⟩ := isDigit_toNat_bounds h
  have e1 : c ≠ ' ' := fun he => by subst he; simp at h1 h2
  have e2 : c ≠ '\t' := fun he => by subst he; simp at h1 h2
  have e3 : c ≠ '\n' := fun he => by subst he; simp at h1 h2
  have e4 : c ≠ '\r' := fun he => by subst he; simp at h1 h2
  simp [isJsonWs, e1, e2, e3, e4]

theorem digit_notin {c : Char} (h : c.isDigit = true) :
    c ≠ 'n' ∧ c ≠ 't' ∧ c ≠ 'f' ∧ c ≠ '"' ∧ c ≠ '[' ∧ c ≠ '{'
      ∧ c ≠ ']' ∧ c ≠ '}' ∧ c ≠ '-' ∧ c ≠ ',' := by
  refine ⟨?_, ?_, ?_, ?_, ?_, ?_, ?_, ?_, ?_, ?_⟩ <;>
    exact fun he => by subst he; exact absurd h (by decide)

theorem takeDigits_append :
    ∀ ds rest, (∀ c ∈ ds, c.isDigit = true) → headNotDigit rest = true →
      takeDigits (ds ++ rest) = (ds, rest) := by
  intro ds
  induction ds with
  | nil =>
    intro rest _ hr
    cases rest with
    | nil => rfl
    | cons c r =>
      unfold headNotDigit at hr
      simp only [Bool.not_eq_true'] at hr
      simp [takeDigits, hr]
  | cons d ds ih =>
    intro rest hd hr
    have hdd := hd d (by simp)
    rw [List.cons_append]
    unfold takeDigits
    rw [if_pos hdd, ih rest (fun c hc => hd c (by simp [hc])) hr]

theorem parseNum_intChars (i : Int) (rest : List Char)
    (h : headNotDigit rest = true) :
    parseNum (intChars i ++ rest) = some (i, rest) := by
  by_cases hneg : i < 0
  · rw [show intChars i = '-' :: natChars (-i).toNat from by
      unfold intChars; rw [if_pos hneg]]
    rw [List.cons_append]
    simp only [parseNum, if_true]
    rw [takeDigits_append _ rest (natChars_digits _) h]
    obtain ⟨d, ds', hnc⟩ := List.exists_cons_of_ne_nil (natChars_ne_nil (-i).toNat)
    rw [hnc]
    show some (-(digitsVal (d :: ds') : Int), rest) = some (i, rest)
    rw [← hnc, natChars_val]
    congr 1
    congr 1
    omega
  · rw [show intChars i = natChars i.toNat from by
      unfold intChars; rw [if_neg hneg]]
    obtain ⟨d, ds', hnc⟩ := List.exists_cons_of_ne_nil (natChars_ne_nil i.toNat)
    have hdd : d.isDigit = true := natChars_digits i.toNat d (by rw [hnc]; simp)
    rw [hnc, List.cons_append]
    simp only [parseNum]
    rw [if_neg (digit_notin hdd).2.2.2.2.2.2.2.2.1]
    rw [← List.cons_append, ← hnc,
      takeDigits_append _ rest (natChars_digits _) h]
    rw [hnc]
    show some ((digitsVal (d :: ds') : Int), rest) = some (i, rest)
    rw [← hnc, natChars_val]
    congr 1
    congr 1
    omega

theorem skipWs_cons_of_not_ws {c : Char} {l : List Char}
    (h : isJsonWs c = false) : skipWs (c :: l) = c :: l := by
  simp [skipWs, List.dropWhile, h]

theorem skipWs_cons_space (l : List Char) : skipWs (' ' :: l) = skipWs l := rfl

theorem headChar_ok {c : Char} {t l : List Char}
    (he : l = c :: t) (h : isJsonWs c = false ∧ c ≠ ']' ∧ c ≠ '}') :
    ∃ c' t', l = c' :: t' ∧ isJsonWs c' = false ∧ c' ≠ ']' ∧ c' ≠ '}' :=
  ⟨c, t, he, h.1, h.2.1, h.2.2⟩

theorem dumpJ_head (v : JValue) :
    ∃ c t, dumpJ v = c :: t ∧ isJsonWs c = false ∧ c ≠ ']' ∧ c ≠ '}' := by
  cases v with
  | null => exact headChar_ok rfl (by decide)
  | bool b => cases b
              · exact headChar_ok rfl (by decide)
              · exact headChar_ok rfl (by decide)
  | num n =>
    by_cases hneg : n < 0
    · refine @headChar_ok '-' (natChars (-n).toNat) _ ?_ (by decide)
      unfold dumpJ intChars
      rw [if_pos hneg]
    · obtain ⟨d, ds', hnc⟩ := List.exists_cons_of_ne_nil (natChars_ne_nil n.toNat)
      have hdd : d.isDigit = true := natChars_digits n.toNat d (by rw [hnc]; simp)
      refine @headChar_ok d ds' _ ?_
        ⟨not_ws_of_digit hdd, (digit_notin hdd).2.2.2.2.2.2.1,
          (digit_notin hdd).2.2.2.2.2.2.2.1⟩
      show intChars n = d :: ds'
      unfold intChars
      rw [if_neg hneg, hnc]
  | str s => exact headChar_ok rfl (by decide)
  | arr es => cases es
              · exact headChar_ok rfl (by decide)
              · exact headChar_ok rfl (by decide)
  | obj fs => cases fs
              · exact headChar_ok rfl (by decide)
              · exact headChar_ok rfl (by decide)

theorem parseJ_cons_space (fuel : Nat) (l : List Char) :
    parseJ fuel (' ' :: l) = parseJ fuel l := by
  cases fuel with
  | zero => rfl
  | succ fuel =>
    show (match skipWs (' ' :: l) with
      | [] => none
      | c :: rest => _) = _
    rw [skipWs_cons_space]
    rfl

theorem parseArrItems_cons_space (fuel : Nat) (l : List Char) :
    parseArrItems fuel (' ' :: l) = parseArrItems fuel l := by
  cases fuel with
  | zero => rfl
  | succ fuel =>
    simp only [parseArrItems, parseJ_cons_space]

theorem parseObjItems_cons_space (fuel : Nat) (l : List Char) :
    parseObjItems fuel (' ' :: l) = parseObjItems fuel l := by
  cases fuel with
  | zero => rfl
  | succ fuel =>
    show (match skipWs (' ' :: l) with
      | '"' :: rest => _
      | _ => none) = _
    rw [skipWs_cons_space]
    rfl

theorem headNotDigit_arrRest (vs : List JValue) (rest : List Char) :
    headNotDigit (dumpArrRest vs ++ (']' :: rest)) = true := by
  cases vs <;> rfl

theorem headNotDigit_objRest (fs : List (String × JValue)) (rest : List Char) :
    headNotDigit (dumpObjRest fs ++ ('}' :: rest)) = true := by
  cases fs <;> rfl

theorem dictSet_absent {acc : List (String × JValue)} {k : String}
    {v : JValue} (h : dictFind acc k = none) :
    dictSet acc k v = acc ++ [(k, v)] := by
  induction acc with
  | nil => rfl
  | cons p rest ih =>
    obtain ⟨k', v'⟩ := p
    simp only [dictFind] at h
    simp only [dictSet, List.cons_append]
    by_cases hk : k' = k
    · rw [if_pos hk] at h
      exact absurd h (by simp)
    · rw [if_neg hk] at h
      rw [if_neg hk, ih h]

theorem foldl_dictSet_disjoint :
    ∀ (fs acc : List (String × JValue)),
      noDupKeys (keysOf fs) = true →
      (∀ k ∈ keysOf fs, dictFind acc k = none) →
      fs.foldl (fun acc kv => dictSet acc kv.1 kv.2) acc = acc ++ fs := by
  intro fs
  induction fs with
  | nil => intro acc _ _; simp
  | cons p rest ih =>
    obtain ⟨k, v⟩ := p
    intro acc hnd habs
    simp only [keysOf, noDupKeys, Bool.and_eq_true, Bool.not_eq_true'] at hnd
    obtain ⟨hkn, hnd'⟩ := hnd
    simp only [List.foldl_cons]
    rw [dictSet_absent (habs k (by simp [keysOf]))]
    rw [ih (acc ++ [(k, v)]) hnd' ?_]
    · simp
    · intro k' hk'
      have hne : k ≠ k' := by
        intro he
        subst he
        simp at hkn
        exact hkn hk'
      rw [dictFind_append_right (habs k' (by simp [keysOf, hk']))]
      simp [dictFind, hne]

theorem dedupFields_eq_self {fs : List (String × JValue)}
    (h : noDupKeys (keysOf fs) = true) : dedupFields fs = fs := by
  unfold dedupFields
  rw [foldl_dictSet_disjoint fs [] h (fun k _ => rfl)]
  rfl

theorem parseJ_succ_cons (fuel : Nat) (c : Char) (l : List Char)
    (hws : isJsonWs c = false) :
    parseJ (fuel + 1) (c :: l) =
      (if c = 'n' then (stripLit "ull".data l).map (fun r => (JValue.null, r))
      else if c = 't' then (stripLit "rue".data l).map
        (fun r => (JValue.bool true, r))
      else if c = 'f' then (stripLit "alse".data l).map
        (fun r => (JValue.bool false, r))
      else if c = '"' then
        (parseStringBody l).map (fun p => (JValue.str ⟨p.1⟩, p.2))
      else if c = '[' then
        (match skipWs l with
         | [] => none
         | c2 :: r2 =>
           if c2 = ']' then some (JValue.arr [], r2)
           else (parseArrItems fuel l).map (fun p => (JValue.arr p.1, p.2)))
      else if c = '{' then
        (match skipWs l with
         | [] => none
         | c2 :: r2 =>
           if c2 = '}' then some (JValue.obj [], r2)
           else (parseObjItems fuel l).map
             (fun p => (JValue.obj (dedupFields p.1), p.2)))
      else (parseNum (c :: l)).map (fun p => (JValue.num p.1, p.2))) := by
  show (match skipWs (c :: l) with
    | [] => none
    | c :: rest => _) = _
  rw [skipWs_cons_of_not_ws hws]

theorem parseObjItems_succ_quote (fuel : Nat) (l : List Char) :
    parseObjItems (fuel + 1) ('"' :: l) =
      (match parseStringBody l with
       | none => none
       | some (k, rest2) =>
         match skipWs rest2 with
         | ':' :: rest3 =>
           (match parseJ fuel rest3 with
            | none => none
            | some (v, rest4) =>
              match skipWs rest4 with
              | ',' :: r => (parseObjItems fuel r).map
                  (fun p => ((⟨k⟩, v) :: p.1, p.2))
              | '}' :: r => some ([(⟨k⟩, v)], r)
              | _ => none)
         | _ => none) := by
  show ((match skipWs ('"' :: l) with
    | '"' :: rest =>
      (match parseStringBody rest with
       | none => none
       | some (k, rest2) =>
         match skipWs rest2 with
         | ':' :: rest3 =>
           (match parseJ fuel rest3 with
            | none => none
            | some (v, rest4) =>
              match skipWs rest4 with
              | ',' :: r => (parseObjItems fuel r).map
                  (fun p => ((⟨k⟩, v) :: p.1, p.2))
              | '}' :: r => some ([(⟨k⟩, v)], r)
              | _ => none)
         | _ => none)
    | _ => none : Option (List (String × JValue) × List Char)) = _)
  rw [skipWs_cons_of_not_ws (by decide)]
  rfl

theorem parse_dump_mutual :
    ∀ fuel : Nat,
      (∀ v rest, jWF v = true → jSize v < fuel → headNotDigit rest = true →
        parseJ fuel (dumpJ v ++ rest) = some (v, rest)) ∧
      (∀ v vs rest, jWF v = true → jWFList vs = true →
        jSizeList (v :: vs) < fuel →
        parseArrItems fuel (dumpJ v ++ (dumpArrRest vs ++ (']' :: rest)))
          = some (v :: vs, rest)) ∧
      (∀ k v fs rest, jWF v = true → jWFFields fs = true →
        jSizeFields ((k, v) :: fs) < fuel →
        parseObjItems fuel
            (dumpField (k, v) ++ (dumpObjRest fs ++ ('}' :: rest)))
          = some ((k, v) :: fs, rest)) := by
  intro fuel
  induction fuel with
  | zero =>
    refine ⟨?_, ?_, ?_⟩
    · intro v rest _ hsz _; omega
    · intro v vs rest _ _ hsz; omega
    · intro k v fs rest _ _ hsz; omega
  | succ fuel ih =>
    obtain ⟨IH1, IH2, IH3⟩ := ih
    refine ⟨?_, ?_, ?_⟩
    · intro v rest hwf hsz hrest
      cases v with
      | null => rfl
      | bool b => cases b <;> rfl
      | num n =>
        by_cases hneg : n < 0
        · have hin : intChars n = '-' :: natChars (-n).toNat := by
            unfold intChars
            rw [if_pos hneg]
          have hgoal : dumpJ (JValue.num n) ++ rest
              = '-' :: (natChars (-n).toNat ++ rest) := by
            show intChars n ++ rest = _
            rw [hin, List.cons_append]
          rw [hgoal, parseJ_succ_cons fuel '-' _ (by decide),
            if_neg (by decide), if_neg (by decide), if_neg (by decide),
            if_neg (by decide), if_neg (by decide), if_neg (by decide),
            ← List.cons_append, ← hin, parseNum_intChars n rest hrest]
          rfl
        · have hin : intChars n = natChars n.toNat := by
            unfold intChars
            rw [if_neg hneg]
          obtain ⟨c, t, hct⟩ : ∃ c t, natChars n.toNat = c :: t := by
            cases hnc : natChars n.toNat with
            | nil => exact absurd hnc (natChars_ne_nil _)
            | cons c t => exact ⟨c, t, rfl⟩
          have hcd : c.isDigit = true :=
            natChars_digits n.toNat c (by rw [hct]; exact List.mem_cons_self c t)
          obtain ⟨e1, e2, e3, e4, e5, e6, _, _, _, _⟩ := digit_notin hcd
          have hgoal : dumpJ (JValue.num n) ++ rest = c :: (t ++ rest) := by
            show intChars n ++ rest = _
            rw [hin, hct, List.cons_append]
          rw [hgoal, parseJ_succ_cons fuel c _ (not_ws_of_digit hcd),
            if_neg e1, if_neg e2, if_neg e3, if_neg e4, if_neg e5, if_neg e6,
            ← List.cons_append, ← hct, ← hin, parseNum_intChars n rest hrest]
          rfl
      | str s =>
        have hgoal : dumpJ (JValue.str s) ++ rest
            = '"' :: (escapeChars s.data ++ '"' :: rest) := by
          show ('"' :: (escapeChars s.data ++ ['"'])) ++ rest = _
          simp
        rw [hgoal, parseJ_succ_cons fuel '"' _ (by decide),
          if_neg (by decide), if_neg (by decide), if_neg (by decide),
          if_pos rfl, parseStringBody_escape]
        rfl
      | arr es =>
        cases es with
        | nil => rfl
        | cons v vs =>
          have hl : (jWF v && jWFList vs) = true := hwf
          rw [Bool.and_eq_true] at hl
          have hs : 1 + jSizeList (v :: vs) < fuel + 1 := hsz
          have hs' : jSizeList (v :: vs) < fuel := by omega
          have hgoal : dumpJ (JValue.arr (v :: vs)) ++ rest
              = '[' :: (dumpJ v ++ (dumpArrRest vs ++ (']' :: rest))) := by
            show ('[' :: (dumpJ v ++ dumpArrRest vs ++ [']'])) ++ rest = _
            simp
          rw [hgoal, parseJ_succ_cons fuel '[' _ (by decide),
            if_neg (by decide), if_neg (by decide), if_neg (by decide),
            if_neg (by decide), if_pos rfl]
          obtain ⟨c, t, hct, hws, hbr, _⟩ := dumpJ_head v
          have hskip : skipWs (dumpJ v ++ (dumpArrRest vs ++ (']' :: rest)))
              = c :: (t ++ (dumpArrRest vs ++ (']' :: rest))) := by
            rw [hct, List.cons_append, skipWs_cons_of_not_ws hws]
          have harr := IH2 v vs rest hl.1 hl.2 hs'
          rw [hskip]
          simp [hbr, harr]
      | obj fs =>
        cases fs with
        | nil => rfl
        | cons f fs =>
          obtain ⟨k, v⟩ := f
          have hwf' : (noDupKeys (keysOf ((k, v) :: fs))
              && jWFFields ((k, v) :: fs)) = true := hwf
          rw [Bool.and_eq_true] at hwf'
          obtain ⟨hnodup, hfwf⟩ := hwf'
          have hfwf' : (jWF v && jWFFields fs) = true := hfwf
          rw [Bool.and_eq_true] at hfwf'
          have hs : 1 + jSizeFields ((k, v) :: fs) < fuel + 1 := hsz
          have hs' : jSizeFields ((k, v) :: fs) < fuel := by omega
          have hgoal : dumpJ (JValue.obj ((k, v) :: fs)) ++ rest
              = '{' :: (dumpField (k, v) ++ (dumpObjRest fs ++ ('}' :: rest))) := by
            show ('{' :: (dumpField (k, v) ++ dumpObjRest fs ++ ['}'])) ++ rest = _
            simp
          rw [hgoal, parseJ_succ_cons fuel '{' _ (by decide),
            if_neg (by decide), if_neg (by decide), if_neg (by decide),
            if_neg (by decide), if_neg (by decide), if_pos rfl]
          have hskip : skipWs (dumpField (k, v) ++ (dumpObjRest fs ++ ('}' :: rest)))
              = '"' :: ((escapeChars k.data ++ '"' :: ':' :: ' ' :: dumpJ v)
                  ++ (dumpObjRest fs ++ ('}' :: rest))) := by
            show skipWs (('"' :: (escapeChars k.data ++ '"' :: ':' :: ' ' :: dumpJ v))
                ++ (dumpObjRest fs ++ ('}' :: rest))) = _
            rw [List.cons_append, skipWs_cons_of_not_ws (by decide)]
          have hobj := IH3 k v fs rest hfwf'.1 hfwf'.2 hs'
          rw [hskip]
          simp [hobj, dedupFields_eq_self hnodup]
    · intro v vs rest h1 h2 hsz
      have hs : 1 + jSize v + jSizeList vs < fuel + 1 := hsz
      cases vs with
      | nil =>
        simp only [parseArrItems]
        rw [IH1 v _ h1 (by omega) (headNotDigit_arrRest [] rest)]
        rfl
      | cons v2 vs' =>
        have h2' : (jWF v2 && jWFList vs') = true := h2
        rw [Bool.and_eq_true] at h2'
        have hs2 : 1 + jSize v2 + jSizeList vs' = jSizeList (v2 :: vs') := rfl
        have hrec := IH2 v2 vs' rest h2'.1 h2'.2 (by omega)
        simp only [parseArrItems]
        rw [IH1 v _ h1 (by omega) (headNotDigit_arrRest (v2 :: vs') rest)]
        rw [show dumpArrRest (v2 :: vs') ++ (']' :: rest)
            = ',' :: ' ' :: (dumpJ v2 ++ (dumpArrRest vs' ++ (']' :: rest))) from by
          show (',' :: ' ' :: (dumpJ v2 ++ dumpArrRest vs')) ++ (']' :: rest) = _
          simp]
        show (parseArrItems fuel
            (' ' :: (dumpJ v2 ++ (dumpArrRest vs' ++ (']' :: rest))))).map
            (fun p => (v :: p.1, p.2)) = some (v :: v2 :: vs', rest)
        rw [parseArrItems_cons_space, hrec]
        rfl
    · intro k v fs rest h1 h2 hsz
      have hs : 1 + jSize v + jSizeFields fs < fuel + 1 := hsz
      rw [show dumpField (k, v) ++ (dumpObjRest fs ++ ('}' :: rest))
          = '"' :: (escapeChars k.data
              ++ '"' :: ':' :: ' ' :: (dumpJ v ++ (dumpObjRest fs ++ ('}' :: rest))))
        from by
          show ('"' :: (escapeChars k.data ++ '"' :: ':' :: ' ' :: dumpJ v))
              ++ (dumpObjRest fs ++ ('}' :: rest)) = _
          simp]
      rw [parseObjItems_succ_quote, parseStringBody_escape]
      show (match skipWs (':' :: ' ' :: (dumpJ v ++ (dumpObjRest fs ++ ('}' :: rest)))) with
        | ':' :: rest3 =>
          (match parseJ fuel rest3 with
           | none => none
           | some (v', rest4) =>
             match skipWs rest4 with
             | ',' :: r => (parseObjItems fuel r).map
                 (fun p => ((⟨k.data⟩, v') :: p.1, p.2))
             | '}' :: r => some ([(⟨k.data⟩, v')], r)
             | _ => none)
        | _ => none) = some ((k, v) :: fs, rest)
      rw [skipWs_cons_of_not_ws (by decide)]
      show (match parseJ fuel (' ' :: (dumpJ v ++ (dumpObjRest fs ++ ('}' :: rest)))) with
        | none => none
        | some (v', rest4) =>
          match skipWs rest4 with
          | ',' :: r => (parseObjItems fuel r).map
              (fun p => ((⟨k.data⟩, v') :: p.1, p.2))
          | '}' :: r => some ([(⟨k.data⟩, v')], r)
          | _ => none) = some ((k, v) :: fs, rest)
      rw [parseJ_cons_space,
        IH1 v _ h1 (by omega) (headNotDigit_objRest fs rest)]
      cases fs with
      | nil => rfl
      | cons f2 fs' =>
        obtain ⟨k2, v2⟩ := f2
        have h2' : (jWF v2 && jWFFields fs') = true := h2
        rw [Bool.and_eq_true] at h2'
        have hs2 : 1 + jSize v2 + jSizeFields fs' = jSizeFields ((k2, v2) :: fs') := rfl
        have hrec := IH3 k2 v2 fs' rest h2'.1 h2'.2 (by omega)
        rw [show dumpObjRest ((k2, v2) :: fs') ++ ('}' :: rest)
            = ',' :: ' ' :: (dumpField (k2, v2) ++ (dumpObjRest fs' ++ ('}' :: rest)))
          from by
            show (',' :: ' ' :: (dumpField (k2, v2) ++ dumpObjRest fs'))
                ++ ('}' :: rest) = _
            simp]
        show (parseObjItems fuel
            (' ' :: (dumpField (k2, v2) ++ (dumpObjRest fs' ++ ('}' :: rest))))).map
            (fun p => ((⟨k.data⟩, v) :: p.1, p.2))
          = some ((k, v) :: (k2, v2) :: fs', rest)
        rw [parseObjItems_cons_space, hrec]
        rfl

theorem jSize_le_dump_mutual :
    ∀ n : Nat,
      (∀ v, jSize v ≤ n → jSize v ≤ (dumpJ v).length) ∧
      (∀ vs, jSizeList vs ≤ n → jSizeList vs ≤ (dumpArrRest vs).length) ∧
      (∀ fs, jSizeFields fs ≤ n → jSizeFields fs ≤ (dumpObjRest fs).length) := by
  intro n
  induction n with
  | zero =>
    refine ⟨?_, ?_, ?_⟩
    · intro v h
      cases v with
      | null => simp [jSize]
      | bool b => simp [jSize]
      | num m => simp [jSize]
      | str s => simp [jSize]
      | arr es => exact absurd h (by simp [jSize])
      | obj fs => exact absurd h (by simp [jSize])
    · intro vs h
      cases vs with
      | nil => simp [jSizeList]
      | cons v vs => exact absurd h (by simp [jSizeList])
    · intro fs h
      cases fs with
      | nil => simp [jSizeFields]
      | cons f fs =>
        obtain ⟨k, v⟩ := f
        exact absurd h (by simp [jSizeFields])
  | succ n ih =>
    obtain ⟨ihV, ihL, ihF⟩ := ih
    refine ⟨?_, ?_, ?_⟩
    · intro v h
      cases v with
      | null => simp [jSize]
      | bool b => simp [jSize]
      | num m => simp [jSize]
      | str s => simp [jSize]
      | arr es =>
        cases es with
        | nil => simp [jSize, jSizeList, dumpJ]
        | cons v vs =>
          have h' : 1 + (1 + jSize v + jSizeList vs) ≤ n + 1 := h
          have hv := ihV v (by omega)
          have hl := ihL vs (by omega)
          simp only [jSize, jSizeList, dumpJ, List.length_cons,
            List.length_append]
          simp at hv hl ⊢
          omega
      | obj fs =>
        cases fs with
        | nil => simp [jSize, jSizeFields, dumpJ]
        | cons f fs =>
          obtain ⟨k, v⟩ := f
          have h' : 1 + (1 + jSize v + jSizeFields fs) ≤ n + 1 := h
          have hv := ihV v (by omega)
          have hf := ihF fs (by omega)
          simp only [jSize, jSizeFields, dumpJ, dumpField, List.length_cons,
            List.length_append]
          simp at hv hf ⊢
          omega
    · intro vs h
      cases vs with
      | nil => simp [jSizeList]
      | cons v vs =>
        have h' : 1 + jSize v + jSizeList vs ≤ n + 1 := h
        have hv := ihV v (by omega)
        have hl := ihL vs (by omega)
        simp only [jSizeList, dumpArrRest, List.length_cons, List.length_append]
        omega
    · intro fs h
      cases fs with
      | nil => simp [jSizeFields]
      | cons f fs =>
        obtain ⟨k, v⟩ := f
        have h' : 1 + jSize v + jSizeFields fs ≤ n + 1 := h
        have hv := ihV v (by omega)
        have hf := ihF fs (by omega)
        simp only [jSizeFields, dumpObjRest, dumpField, List.length_cons,
          List.length_append]
        omega

theorem jsonLoads_dumps {v : JValue} (hwf : jWF v = true) :
    jsonLoads (jsonDumps v) = some v := by
  have hsz : jSize v ≤ (dumpJ v).length :=
    (jSize_le_dump_mutual (jSize v)).1 v le_rfl
  have h := (parse_dump_mutual ((dumpJ v).length + 2)).1 v [] hwf (by omega) rfl
  rw [List.append_nil] at h
  show (match parseJ ((dumpJ v).length + 2) (dumpJ v) with
    | some (v', rest) => if (skipWs rest).isEmpty then some v' else none
    | none => none) = some v
  rw [h]
  rfl

theorem noDupKeys_iff : ∀ ks : List String, noDupKeys ks = true ↔ ks.Nodup := by
  intro ks
  induction ks with
  | nil => simp [noDupKeys]
  | cons k ks ih =>
    simp [noDupKeys, List.nodup_cons, ih]

theorem jWFFields_dictSet {d : List (String × JValue)} {k : String}
    {v : JValue} (hd : jWFFields d = true) (hv : jWF v = true) :
    jWFFields (dictSet d k v) = true := by
  induction d with
  | nil =>
    show (jWF v && jWFFields []) = true
    simp [hv, jWFFields]
  | cons p rest ih =>
    obtain ⟨k', v'⟩ := p
    have hd' : (jWF v' && jWFFields rest) = true := hd
    rw [Bool.and_eq_true] at hd'
    show jWFFields (if k' = k then (k', v) :: rest else (k', v') :: dictSet rest k v) = true
    by_cases hk : k' = k
    · rw [if_pos hk]
      show (jWF v && jWFFields rest) = true
      simp [hv, hd'.2]
    · rw [if_neg hk]
      show (jWF v' && jWFFields (dictSet rest k v)) = true
      simp [hd'.1, ih hd'.2]

theorem keysOf_dictSet_cases :
    ∀ (d : List (String × JValue)) (k : String) (v : JValue),
      keysOf (dictSet d k v) = keysOf d ∨
      (keysOf (dictSet d k v) = keysOf d ++ [k] ∧ k ∉ keysOf d) := by
  intro d k v
  induction d with
  | nil => exact Or.inr ⟨rfl, by simp [keysOf]⟩
  | cons p rest ih =>
    obtain ⟨k', v'⟩ := p
    by_cases hk : k' = k
    · left
      have hstep : dictSet ((k', v') :: rest) k v = (k', v) :: rest := by
        show (if k' = k then (k', v) :: rest else (k', v') :: dictSet rest k v) = _
        rw [if_pos hk]
      rw [hstep]
      rfl
    · have hstep : dictSet ((k', v') :: rest) k v
          = (k', v') :: dictSet rest k v := by
        show (if k' = k then (k', v) :: rest else (k', v') :: dictSet rest k v) = _
        rw [if_neg hk]
      rw [hstep]
      cases ih with
      | inl he =>
        left
        show k' :: keysOf (dictSet rest k v) = k' :: keysOf rest
        rw [he]
      | inr hr =>
        right
        constructor
        · show k' :: keysOf (dictSet rest k v) = (k' :: keysOf rest) ++ [k]
          rw [hr.1]
          rfl
        · intro hm
          rcases List.mem_cons.mp hm with he | hm'
          · exact hk he.symm
          · exact hr.2 hm'

theorem nodup_keysOf_dictSet {d : List (String × JValue)} {k : String}
    {v : JValue} (hd : (keysOf d).Nodup) : (keysOf (dictSet d k v)).Nodup := by
  rcases keysOf_dictSet_cases d k v with he | ⟨he, hnm⟩
  · rw [he]; exact hd
  · rw [he]
    simp [List.nodup_append, hd, hnm]

theorem dedupFields_foldl_wf :
    ∀ (fs acc : List (String × JValue)),
      jWFFields fs = true →
      (keysOf acc).Nodup → jWFFields acc = true →
      (keysOf (fs.foldl (fun a kv => dictSet a kv.1 kv.2) acc)).Nodup ∧
        jWFFields (fs.foldl (fun a kv => dictSet a kv.1 kv.2) acc) = true := by
  intro fs
  induction fs with
  | nil => intro acc _ h1 h2; exact ⟨h1, h2⟩
  | cons p rest ih =>
    obtain ⟨k, v⟩ := p
    intro acc hwf h1 h2
    have hwf' : (jWF v && jWFFields rest) = true := hwf
    rw [Bool.and_eq_true] at hwf'
    simp only [List.foldl_cons]
    exact ih (dictSet acc k v) hwf'.2 (nodup_keysOf_dictSet h1)
      (jWFFields_dictSet h2 hwf'.1)

theorem dedupFields_wf {fs : List (String × JValue)}
    (h : jWFFields fs = true) : jWF (.obj (dedupFields fs)) = true := by
  have hh := dedupFields_foldl_wf fs [] h (by simp [keysOf]) rfl
  show (noDupKeys (keysOf (dedupFields fs)) && jWFFields (dedupFields fs)) = true
  rw [Bool.and_eq_true]
  exact ⟨(noDupKeys_iff _).mpr hh.1, hh.2⟩

theorem parse_wf_mutual :
    ∀ fuel : Nat,
      (∀ cs v rest, parseJ fuel cs = some (v, rest) → jWF v = true) ∧
      (∀ cs vs rest, parseArrItems fuel cs = some (vs, rest) →
        jWFList vs = true) ∧
      (∀ cs fs rest, parseObjItems fuel cs = some (fs, rest) →
        jWFFields fs = true) := by
  intro fuel
  induction fuel with
  | zero =>
    refine ⟨?_, ?_, ?_⟩ <;> intro cs x rest h <;> exact absurd h (by
      simp [parseJ, parseArrItems, parseObjItems])
  | succ fuel ih =>
    obtain ⟨IH1, IH2, IH3⟩ := ih
    refine ⟨?_, ?_, ?_⟩
    · intro cs v rest h
      simp only [parseJ] at h
      split at h
      · exact absurd h (by simp)
      · split at h
        · rw [Option.map_eq_some'] at h
          obtain ⟨r, _, heq⟩ := h
          injection heq with h1 _
          subst h1
          rfl
        · split at h
          · rw [Option.map_eq_some'] at h
            obtain ⟨r, _, heq⟩ := h
            injection heq with h1 _
            subst h1
            rfl
          · split at h
            · rw [Option.map_eq_some'] at h
              obtain ⟨r, _, heq⟩ := h
              injection heq with h1 _
              subst h1
              rfl
            · split at h
              · rw [Option.map_eq_some'] at h
                obtain ⟨p, _, heq⟩ := h
                injection heq with h1 _
                subst h1
                rfl
              · split at h
                · split at h
                  · exact absurd h (by simp)
                  · split at h
                    · injection h with h1
                      injection h1 with h2 h3
                      subst h2
                      rfl
                    · rw [Option.map_eq_some'] at h
                      obtain ⟨p, hp, heq⟩ := h
                      injection heq with h1 _
                      subst h1
                      exact IH2 _ p.1 p.2 hp
                · split at h
                  · split at h
                    · exact absurd h (by simp)
                    · split at h
                      · injection h with h1
                        injection h1 with h2 h3
                        subst h2
                        rfl
                      · rw [Option.map_eq_some'] at h
                        obtain ⟨p, hp, heq⟩ := h
                        injection heq with h1 _
                        subst h1
                        exact dedupFields_wf (IH3 _ p.1 p.2 hp)
                  · rw [Option.map_eq_some'] at h
                    obtain ⟨p, _, heq⟩ := h
                    injection heq with h1 _
                    subst h1
                    rfl
    · intro cs vs rest h
      simp only [parseArrItems] at h
      split at h
      · exact absurd h (by simp)
      · rename_i v' rest' hpj
        have hv' := IH1 cs v' rest' hpj
        split at h
        · rw [Option.map_eq_some'] at h
          obtain ⟨p, hp, heq⟩ := h
          injection heq with h1 _
          subst h1
          show (jWF v' && jWFList p.1) = true
          simp [hv', IH2 _ p.1 p.2 hp]
        · injection h with h1
          injection h1 with h2 h3
          subst h2
          show (jWF v' && jWFList []) = true
          simp [hv', jWFList]
        · exact absurd h (by simp)
    · intro cs fs rest h
      simp only [parseObjItems] at h
      split at h
      · rename_i rest1 hsk
        split at h
        · exact absurd h (by simp)
        · rename_i k rest2 hps
          split at h
          · rename_i rest3 hsk2
            split at h
            · exact absurd h (by simp)
            · rename_i v' rest4 hpj
              have hv' := IH1 _ v' rest4 hpj
              split at h
              · rw [Option.map_eq_some'] at h
                obtain ⟨p, hp, heq⟩ := h
                injection heq with h1 _
                subst h1
                show (jWF v' && jWFFields p.1) = true
                simp [hv', IH3 _ p.1 p.2 hp]
              · injection h with h1
                injection h1 with h2 h3
                subst h2
                show (jWF v' && jWFFields []) = true
                simp [hv', jWFFields]
              · exact absurd h (by simp)
          · exact absurd h (by simp)
      · exact absurd h (by simp)

theorem jsonLoads_wf {s : String} {v : JValue} (h : jsonLoads s = some v) :
    jWF v = true := by
  unfold jsonLoads at h
  split at h
  · rename_i v' rest hpj
    split at h
    · injection h with h1
      subst h1
      exact (parse_wf_mutual _).1 _ v' rest hpj
    · exact absurd h (by simp)
  · exact absurd h (by simp)

theorem dropWhile_head_false {p : Char → Bool} :
    ∀ {l : List Char} {c t}, l.dropWhile p = c :: t → p c = false := by
  intro l
  induction l with
  | nil => intro c t h; exact absurd h (by simp)
  | cons a as ih =>
    intro c t h
    by_cases ha : p a = true
    · rw [List.dropWhile_cons, if_pos ha] at h
      exact ih h
    · rw [List.dropWhile_cons, if_neg ha] at h
      injection h with h1 _
      subst h1
      simpa using ha

theorem dropWhile_cons_self {p : Char → Bool} {c : Char} {t : List Char}
    (h : p c = false) : (c :: t).dropWhile p = c :: t := by
  rw [List.dropWhile_cons, if_neg (by simp [h])]

theorem dropWhile_idem_self (p : Char → Bool) (l : List Char) :
    (l.dropWhile p).dropWhile p = l.dropWhile p := by
  cases h : l.dropWhile p with
  | nil => simp
  | cons c t => exact dropWhile_cons_self (dropWhile_head_false h)

theorem dropWhile_eq_self_of_forall {p : Char → Bool} {l : List Char}
    (h : ∀ c ∈ l, p c = false) : l.dropWhile p = l := by
  cases l with
  | nil => rfl
  | cons a as =>
    exact dropWhile_cons_self (h a (List.mem_cons_self a as))

theorem pyStripChars_idem (cs : List Char) :
    pyStripChars (pyStripChars cs) = pyStripChars cs := by
  unfold pyStripChars
  set A := cs.dropWhile isPyWs with hA
  set B := A.reverse.dropWhile isPyWs with hB
  have h2 : B.dropWhile isPyWs = B := by
    rw [hB]
    exact dropWhile_idem_self _ _
  have h1 : B.reverse.dropWhile isPyWs = B.reverse := by
    cases hR : B.reverse with
    | nil => simp
    | cons r rs =>
      have hBr : B = rs.reverse ++ [r] := by
        rw [← List.reverse_reverse B, hR]
        simp
      obtain ⟨t, ht⟩ := List.dropWhile_suffix (l := A.reverse) (p := isPyWs)
      rw [← hB] at ht
      have hAr : cs.dropWhile isPyWs = r :: (t ++ rs.reverse).reverse := by
        rw [← hA, ← List.reverse_reverse A, ← ht, hBr]
        simp
      exact dropWhile_cons_self (dropWhile_head_false hAr)
  rw [h1, List.reverse_reverse, h2]

theorem pyStrip_idem (s : String) : pyStrip (pyStrip s) = pyStrip s :=
  congrArg (fun l => (⟨l⟩ : String)) (pyStripChars_idem s.data)

theorem pyStrip_of_no_ws {s : String}
    (h : ∀ c ∈ s.data, isPyWs c = false) : pyStrip s = s := by
  have h1 : pyStripChars s.data = s.data := by
    unfold pyStripChars
    rw [dropWhile_eq_self_of_forall h,
      dropWhile_eq_self_of_forall (fun c hc => h c (List.mem_reverse.mp hc)),
      List.reverse_reverse]
  show (⟨pyStripChars s.data⟩ : String) = s
  rw [h1]

theorem not_pyws_of_digit {c : Char} (h : c.isDigit = true) :
    isPyWs c = false := by
  obtain ⟨h1, h2⟩ := isDigit_toNat_bounds h
  have e1 : c ≠ ' ' := fun he => by subst he; simp at h1 h2
  have e2 : c ≠ '\t' := fun he => by subst he; simp at h1 h2
  have e3 : c ≠ '\n' := fun he => by subst he; simp at h1 h2
  have e4 : c ≠ '\r' := fun he => by subst he; simp at h1 h2
  have e5 : c ≠ '\x0b' := fun he => by subst he; simp at h1 h2
  have e6 : c ≠ '\x0c' := fun he => by subst he; simp at h1 h2
  simp [isPyWs, e1, e2, e3, e4, e5, e6]

theorem pyStrip_isoOfDate (d : CalDate) :
    pyStrip (isoOfDate d) = isoOfDate d := by
  apply pyStrip_of_no_ws
  intro c hc
  have hd : c.isDigit = true ∨ c = '-' := by
    have hc : c ∈ pad 4 (natChars d.year)
        ++ '-' :: (pad 2 (natChars d.month) ++ '-' :: pad 2 (natChars d.day)) := hc
    rcases List.mem_append.mp hc with hc | hc
    · exact Or.inl (pad_digits (natChars_digits d.year) c hc)
    · rcases List.mem_cons.mp hc with hc | hc
      · exact Or.inr hc
      · rcases List.mem_append.mp hc with hc | hc
        · exact Or.inl (pad_digits (natChars_digits d.month) c hc)
        · rcases List.mem_cons.mp hc with hc | hc
          · exact Or.inr hc
          · exact Or.inl (pad_digits (natChars_digits d.day) c hc)
  rcases hd with hd | hd
  · exact not_pyws_of_digit hd
  · subst hd
    rfl

theorem dictFind_set_self (d : List (String × JValue)) (k : String)
    (v : JValue) : dictFind (dictSet d k v) k = some v := by
  induction d with
  | nil => simp [dictSet, dictFind]
  | cons p rest ih =>
    obtain ⟨k', v'⟩ := p
    show dictFind (if k' = k then (k', v) :: rest else (k', v') :: dictSet rest k v) k
      = some v
    by_cases hk : k' = k
    · rw [if_pos hk]
      show (if k' = k then some v else dictFind rest k) = some v
      rw [if_pos hk]
    · rw [if_neg hk]
      show (if k' = k then some v' else dictFind (dictSet rest k v) k) = some v
      rw [if_neg hk]
      exact ih

theorem dictFind_set_other {d : List (String × JValue)} {k k' : String}
    (v : JValue) (hne : k ≠ k') :
    dictFind (dictSet d k v) k' = dictFind d k' := by
  induction d with
  | nil =>
    show (if k = k' then some v else dictFind [] k') = dictFind [] k'
    rw [if_neg hne]
  | cons p rest ih =>
    obtain ⟨k0, v0⟩ := p
    show dictFind (if k0 = k then (k0, v) :: rest else (k0, v0) :: dictSet rest k v) k'
      = dictFind ((k0, v0) :: rest) k'
    by_cases hk : k0 = k
    · rw [if_pos hk]
      show (if k0 = k' then some v else dictFind rest k')
        = (if k0 = k' then some v0 else dictFind rest k')
      rw [if_neg (by rw [hk]; exact hne), if_neg (by rw [hk]; exact hne)]
    · rw [if_neg hk]
      show (if k0 = k' then some v0 else dictFind (dictSet rest k v) k')
        = (if k0 = k' then some v0 else dictFind rest k')
      by_cases hk0 : k0 = k'
      · rw [if_pos hk0, if_pos hk0]
      · rw [if_neg hk0, if_neg hk0, ih]

theorem dictSet_same {d : List (String × JValue)} {k : String} {v : JValue}
    (h : dictFind d k = some v) : dictSet d k v = d := by
  induction d with
  | nil => exact absurd h (by simp [dictFind])
  | cons p rest ih =>
    obtain ⟨k', v'⟩ := p
    show (if k' = k then (k', v) :: rest else (k', v') :: dictSet rest k v)
      = (k', v') :: rest
    have h' : (if k' = k then some v' else dictFind rest k) = some v := h
    by_cases hk : k' = k
    · rw [if_pos hk]
      rw [if_pos hk] at h'
      injection h' with h''
      rw [h'']
    · rw [if_neg hk]
      rw [if_neg hk] at h'
      rw [ih h']

theorem dictSetdefault_present {d : List (String × JValue)} {k : String}
    (v : JValue) (h : (dictFind d k).isSome = true) :
    dictSetdefault d k v = d := by
  unfold dictSetdefault
  rw [if_pos h]

theorem dictFind_none_not_mem_keys :
    ∀ {d : List (String × JValue)} {k : String},
      dictFind d k = none → k ∉ keysOf d := by
  intro d
  induction d with
  | nil => intro k _ hm; simp [keysOf] at hm
  | cons p rest ih =>
    obtain ⟨k', v'⟩ := p
    intro k h hm
    have h' : (if k' = k then some v' else dictFind rest k) = none := h
    by_cases hk : k' = k
    · rw [if_pos hk] at h'
      exact absurd h' (by simp)
    · rw [if_neg hk] at h'
      rcases List.mem_cons.mp hm with he | hm'
      · exact hk he.symm
      · exact ih h' hm'

theorem keysOf_append (d e : List (String × JValue)) :
    keysOf (d ++ e) = keysOf d ++ keysOf e := by
  induction d with
  | nil => rfl
  | cons p rest ih =>
    obtain ⟨k, v⟩ := p
    show k :: keysOf (rest ++ e) = k :: (keysOf rest ++ keysOf e)
    rw [ih]

theorem jWFFields_append {d e : List (String × JValue)}
    (hd : jWFFields d = true) (he : jWFFields e = true) :
    jWFFields (d ++ e) = true := by
  induction d with
  | nil => exact he
  | cons p rest ih =>
    obtain ⟨k, v⟩ := p
    have hd' : (jWF v && jWFFields rest) = true := hd
    rw [Bool.and_eq_true] at hd'
    show (jWF v && jWFFields (rest ++ e)) = true
    simp [hd'.1, ih hd'.2]

theorem dictSetdefault_wf {d : List (String × JValue)} {k : String}
    {v : JValue} (hn : (keysOf d).Nodup) (hw : jWFFields d = true)
    (hv : jWF v = true) :
    (keysOf (dictSetdefault d k v)).Nodup ∧
      jWFFields (dictSetdefault d k v) = true := by
  unfold dictSetdefault
  by_cases h : (dictFind d k).isSome = true
  · rw [if_pos h]
    exact ⟨hn, hw⟩
  · rw [if_neg h]
    have hnone : dictFind d k = none := by
      cases hf : dictFind d k with
      | none => rfl
      | some w => exact absurd (by rw [hf]; rfl) h
    have hnm : k ∉ keysOf d := dictFind_none_not_mem_keys hnone
    constructor
    · rw [keysOf_append]
      simp [List.nodup_append, hn, hnm, keysOf]
    · exact jWFFields_append hw (by simp [jWFFields, hv])

theorem strip_str_eval (s : String) : pyStrStrip (.str s) = pyStrip s := rfl

theorem filterMap_strip_fix {ts : List String} (h : strsInv ts) :
    (ts.map JValue.str).filterMap
      (fun x => let s := pyStrStrip x; if s ≠ "" then some s else none) = ts := by
  induction ts with
  | nil => rfl
  | cons t ts ih =>
    have ht := h t (List.mem_cons_self t ts)
    have hrest : strsInv ts := fun s hs => h s (List.mem_cons_of_mem _ hs)
    rw [List.map_cons,
      List.filterMap_cons_some (by
        show (if pyStrStrip (.str t) ≠ "" then some (pyStrStrip (.str t)) else none)
          = some t
        rw [strip_str_eval, ht.1, if_pos ht.2]),
      ih hrest]

theorem filterMap_strip_inv (items : List JValue) :
    strsInv (items.filterMap
      (fun x => let s := pyStrStrip x; if s ≠ "" then some s else none)) := by
  intro s hs
  rcases List.mem_filterMap.mp hs with ⟨x, _, hx⟩
  have hx' : (if pyStrStrip x ≠ "" then some (pyStrStrip x) else none) = some s := hx
  by_cases h : pyStrStrip x ≠ ""
  · rw [if_pos h] at hx'
    injection hx' with h1
    subst h1
    exact ⟨pyStrip_idem (pyStr x), h⟩
  · rw [if_neg h] at hx'
    exact absurd hx' (by simp)

theorem coerceStrList_encode {l : List String} (h : strsInv l) :
    coerceStrList (encodeStrList l) = l :=
  filterMap_strip_fix h

theorem coerceStrList_inv (v : JValue) : strsInv (coerceStrList v) :=
  filterMap_strip_inv _

theorem niche_name_eval (a b : String) :
    pyStrStrip (dictGetD [("name", JValue.str a), ("why_now", JValue.str b)]
      "name" (dictGetD [("name", JValue.str a), ("why_now", JValue.str b)]
        "title" (.str ""))) = pyStrip a := rfl

theorem niche_why_eval (a b : String) :
    pyStrStrip (dictGetD [("name", JValue.str a), ("why_now", JValue.str b)]
      "why_now" (.str "")) = pyStrip b := rfl

theorem coerceNiches_encode {l : List (String × String)} (h : pairsInv l) :
    coerceNiches (encodeNiches l) = l := by
  induction l with
  | nil => rfl
  | cons p l ih =>
    obtain ⟨hp1, hp2, hp3⟩ := h p (List.mem_cons_self p l)
    have hih := ih (fun q hq => h q (List.mem_cons_of_mem _ hq))
    simp only [coerceNiches, encodeNiches, asList, List.map_cons,
      List.foldr_cons] at hih ⊢
    rw [niche_name_eval, niche_why_eval, hp1, hp3, if_pos hp2, hih]

theorem risk_pair_eval (a b : String) :
    (pyStrStrip (dictGetD [("risk", JValue.str a), ("mitigation", JValue.str b)]
        "risk" (.str "")),
      pyStrStrip (dictGetD [("risk", JValue.str a), ("mitigation", JValue.str b)]
        "mitigation" (.str ""))) = (pyStrip a, pyStrip b) := rfl

theorem coerceRisks_encode {l : List (String × String)} (h : pairsInv l) :
    coerceRisks (encodeRisks l) = l := by
  induction l with
  | nil => rfl
  | cons p l ih =>
    obtain ⟨hp1, hp2, hp3⟩ := h p (List.mem_cons_self p l)
    have hih := ih (fun q hq => h q (List.mem_cons_of_mem _ hq))
    simp only [coerceRisks, encodeRisks, asList, List.map_cons,
      List.foldr_cons] at hih ⊢
    rw [risk_pair_eval, hp1, hp3, List.filter_cons, if_pos (by simp [hp2]),
      hih]

theorem pairsInv_if_cons (s w : String) (R : List (String × String))
    (hR : pairsInv R) (hs : pyStrip s = s) (hw : pyStrip w = w) (C : Prop)
    [Decidable C] (hC : C → s ≠ "") :
    pairsInv (if C then (s, w) :: R else R) := by
  by_cases h : C
  · rw [if_pos h]
    intro q hq
    rcases List.mem_cons.mp hq with he | hm
    · subst he
      exact ⟨hs, hC h, hw⟩
    · exact hR q hm
  · rw [if_neg h]
    exact hR

theorem mem_if_cons {s w : String} {R : List (String × String)}
    {q : String × String} {C : Prop} [Decidable C]
    (hq : q ∈ (if C then (s, w) :: R else R)) : q = (s, w) ∨ q ∈ R := by
  by_cases h : C
  · rw [if_pos h] at hq
    exact List.mem_cons.mp hq
  · rw [if_neg h] at hq
    exact Or.inr hq

theorem coerceNiches_inv (v : JValue) : pairsInv (coerceNiches v) := by
  unfold coerceNiches
  generalize asList v = items
  induction items with
  | nil => intro q hq; simp at hq
  | cons i is ih =>
    rw [List.foldr_cons]
    cases i with
    | obj fs => exact pairsInv_if_cons _ _ _ ih (pyStrip_idem _) (pyStrip_idem _) _ id
    | null => exact pairsInv_if_cons _ _ _ ih (pyStrip_idem _) rfl _ id
    | bool b => exact pairsInv_if_cons _ _ _ ih (pyStrip_idem _) rfl _ id
    | num n => exact pairsInv_if_cons _ _ _ ih (pyStrip_idem _) rfl _ id
    | str s => exact pairsInv_if_cons _ _ _ ih (pyStrip_idem _) rfl _ id
    | arr es => exact pairsInv_if_cons _ _ _ ih (pyStrip_idem _) rfl _ id

theorem coerceRisks_inv (v : JValue) : pairsInv (coerceRisks v) := by
  intro q hq
  unfold coerceRisks at hq
  rcases List.mem_filter.mp hq with ⟨hmem, hpred⟩
  have hne : q.1 ≠ "" := by simpa using hpred
  have hstr : pyStrip q.1 = q.1 ∧ pyStrip q.2 = q.2 := by
    generalize asList v = items at hmem
    induction items with
    | nil => simp at hmem
    | cons i is ih =>
      rw [List.foldr_cons] at hmem
      cases i with
      | obj fs =>
        rcases List.mem_cons.mp hmem with he | hm
        · subst he
          exact ⟨pyStrip_idem _, pyStrip_idem _⟩
        · exact ih hm
      | null =>
        rcases mem_if_cons hmem with he | hm
        · subst he; exact ⟨pyStrip_idem _, rfl⟩
        · exact ih hm
      | bool b =>
        rcases mem_if_cons hmem with he | hm
        · subst he; exact ⟨pyStrip_idem _, rfl⟩
        · exact ih hm
      | num n =>
        rcases mem_if_cons hmem with he | hm
        · subst he; exact ⟨pyStrip_idem _, rfl⟩
        · exact ih hm
      | str s =>
        rcases mem_if_cons hmem with he | hm
        · subst he; exact ⟨pyStrip_idem _, rfl⟩
        · exact ih hm
      | arr es =>
        rcases mem_if_cons hmem with he | hm
        · subst he; exact ⟨pyStrip_idem _, rfl⟩
        · exact ih hm
  exact ⟨hstr.1, hne, hstr.2⟩

theorem except_bind_error {α β : Type} (e : PyErr)
    (f : α → Except PyErr β) :
    ((Except.error e : Except PyErr α) >>= f) = Except.error e := rfl

theorem plan_week_eval (w : Int) (ts : List String) (idx : Int) :
    pyInt (dictGetD [("week", JValue.num w),
      ("tasks", JValue.arr (ts.map JValue.str))] "week" (.num idx))
      = .ok w := rfl

theorem plan_tasks_eval (w : Int) (ts : List String) :
    asList (dictGetD [("week", JValue.num w),
      ("tasks", JValue.arr (ts.map JValue.str))] "tasks" .null)
      = ts.map JValue.str := rfl

theorem coercePlanAux_encode :
    ∀ (l : List (Int × List String)) (idx : Int), planInv l →
      coercePlanAux idx (l.map (fun p => JValue.obj [("week", JValue.num p.1),
        ("tasks", JValue.arr (p.2.map JValue.str))])) = .ok l := by
  intro l
  induction l with
  | nil => intro idx _; rfl
  | cons p l ih =>
    intro idx h
    obtain ⟨hne, hts⟩ := h p (List.mem_cons_self p l)
    have hrec := ih (idx + 1) (fun q hq => h q (List.mem_cons_of_mem _ hq))
    rw [List.map_cons]
    simp only [coercePlanAux]
    rw [plan_week_eval, except_bind_ok]
    simp only [plan_tasks_eval, filterMap_strip_fix hts]
    rw [hrec, except_bind_ok]
    simp only [ne_eq, hne, not_false_iff, if_true]
    rfl

theorem coercePlanAux_inv :
    ∀ (items : List JValue) (idx : Int) (l : List (Int × List String)),
      coercePlanAux idx items = .ok l → planInv l := by
  intro items
  induction items with
  | nil =>
    intro idx l h
    have h' : (Except.ok [] : Except PyErr (List (Int × List String)))
        = .ok l := h
    injection h' with h1
    subst h1
    intro q hq
    simp at hq
  | cons p rest ih =>
    intro idx l h
    cases p with
    | obj fs =>
      simp only [coercePlanAux] at h
      cases hw : pyInt (dictGetD fs "week" (.num idx)) with
      | error e =>
        rw [hw, except_bind_error] at h
        exact absurd h (by simp)
      | ok w =>
        rw [hw, except_bind_ok] at h
        cases hrec : coercePlanAux (idx + 1) rest with
        | error e =>
          rw [hrec, except_bind_error] at h
          exact absurd h (by simp)
        | ok tail =>
          rw [hrec, except_bind_ok] at h
          have htail := ih (idx + 1) tail hrec
          split at h
          · rename_i hts
            have h' : Except.ok ((w, (asList (dictGetD fs "tasks" .null)).filterMap
                (fun t => let s := pyStrStrip t; if s ≠ "" then some s else none))
                  :: tail) = Except.ok l := h
            injection h' with h1
            subst h1
            intro q hq
            rcases List.mem_cons.mp hq with he | hm
            · subst he
              exact ⟨hts, fun s hs => filterMap_strip_inv _ s hs⟩
            · exact htail q hm
          · have h' : Except.ok tail = Except.ok l := h
            injection h' with h1
            subst h1
            exact htail
    | null =>
      simp only [coercePlanAux] at h
      cases hrec : coercePlanAux (idx + 1) rest with
      | error e =>
        rw [hrec, except_bind_error] at h
        exact absurd h (by simp)
      | ok tail =>
        rw [hrec, except_bind_ok] at h
        have htail := ih (idx + 1) tail hrec
        split at h
        · rename_i hs
          have h' : Except.ok ((idx, [pyStrStrip JValue.null]) :: tail)
              = Except.ok l := h
          injection h' with h1
          subst h1
          intro q hq
          rcases List.mem_cons.mp hq with he | hm
          · subst he
            refine ⟨by simp, ?_⟩
            intro s hsm
            rcases List.mem_singleton.mp hsm with rfl
            exact ⟨pyStrip_idem _, hs⟩
          · exact htail q hm
        · have h' : Except.ok tail = Except.ok l := h
          injection h' with h1
          subst h1
          exact htail
    | bool b =>
      simp only [coercePlanAux] at h
      cases hrec : coercePlanAux (idx + 1) rest with
      | error e =>
        rw [hrec, except_bind_error] at h
        exact absurd h (by simp)
      | ok tail =>
        rw [hrec, except_bind_ok] at h
        have htail := ih (idx + 1) tail hrec
        split at h
        · rename_i hs
          have h' : Except.ok ((idx, [pyStrStrip (JValue.bool b)]) :: tail)
              = Except.ok l := h
          injection h' with h1
          subst h1
          intro q hq
          rcases List.mem_cons.mp hq with he | hm
          · subst he
            refine ⟨by simp, ?_⟩
            intro s hsm
            rcases List.mem_singleton.mp hsm with rfl
            exact ⟨pyStrip_idem _, hs⟩
          · exact htail q hm
        · have h' : Except.ok tail = Except.ok l := h
          injection h' with h1
          subst h1
          exact htail
    | num n =>
      simp only [coercePlanAux] at h
      cases hrec : coercePlanAux (idx + 1) rest with
      | error e =>
        rw [hrec, except_bind_error] at h
        exact absurd h (by simp)
      | ok tail =>
        rw [hrec, except_bind_ok] at h
        have htail := ih (idx + 1) tail hrec
        split at h
        · rename_i hs
          have h' : Except.ok ((idx, [pyStrStrip (JValue.num n)]) :: tail)
              = Except.ok l := h
          injection h' with h1
          subst h1
          intro q hq
          rcases List.mem_cons.mp hq with he | hm
          · subst he
            refine ⟨by simp, ?_⟩
            intro s hsm
            rcases List.mem_singleton.mp hsm with rfl
            exact ⟨pyStrip_idem _, hs⟩
          · exact htail q hm
        · have h' : Except.ok tail = Except.ok l := h
          injection h' with h1
          subst h1
          exact htail
    | str s0 =>
      simp only [coercePlanAux] at h
      cases hrec : coercePlanAux (idx + 1) rest with
      | error e =>
        rw [hrec, except_bind_error] at h
        exact absurd h (by simp)
      | ok tail =>
        rw [hrec, except_bind_ok] at h
        have htail := ih (idx + 1) tail hrec
        split at h
        · rename_i hs
          have h' : Except.ok ((idx, [pyStrStrip (JValue.str s0)]) :: tail)
              = Except.ok l := h
          injection h' with h1
          subst h1
          intro q hq
          rcases List.mem_cons.mp hq with he | hm
          · subst he
            refine ⟨by simp, ?_⟩
            intro s hsm
            rcases List.mem_singleton.mp hsm with rfl
            exact ⟨pyStrip_idem _, hs⟩
          · exact htail q hm
        · have h' : Except.ok tail = Except.ok l := h
          injection h' with h1
          subst h1
          exact htail
    | arr es =>
      simp only [coercePlanAux] at h
      cases hrec : coercePlanAux (idx + 1) rest with
      | error e =>
        rw [hrec, except_bind_error] at h
        exact absurd h (by simp)
      | ok tail =>
        rw [hrec, except_bind_ok] at h
        have htail := ih (idx + 1) tail hrec
        split at h
        · rename_i hs
          have h' : Except.ok ((idx, [pyStrStrip (JValue.arr es)]) :: tail)
              = Except.ok l := h
          injection h' with h1
          subst h1
          intro q hq
          rcases List.mem_cons.mp hq with he | hm
          · subst he
            refine ⟨by simp, ?_⟩
            intro s hsm
            rcases List.mem_singleton.mp hsm with rfl
            exact ⟨pyStrip_idem _, hs⟩
          · exact htail q hm
        · have h' : Except.ok tail = Except.ok l := h
          injection h' with h1
          subst h1
          exact htail

theorem coerceSource_encode {today : CalDate} {p : String × String × String}
    (h1 : pyStrip p.1 = p.1) (h2 : pyStrip p.2.1 = p.2.1)
    (h3 : pyStrip p.2.2 = p.2.2 ∧ dateShapeOk p.2.2 = true ∧ p.2.2 ≠ ""
      ∨ p.2.2 = isoOfDate today) :
    coerceSource today (.obj [("url", .str p.1), ("title", .str p.2.1),
      ("date", .str p.2.2)]) = p := by
  show (if pyStrip p.2.2 = "" ∨ ¬ dateShapeOk (pyStrip p.2.2) = true
      then (pyStrip p.1, pyStrip p.2.1, isoOfDate today)
      else (pyStrip p.1, pyStrip p.2.1, pyStrip p.2.2)) = p
  rcases h3 with ⟨h3s, h3d, h3n⟩ | h3e
  · rw [h1, h2, h3s, if_neg (by simp [h3d, h3n])]
  · rw [h1, h2, h3e, pyStrip_isoOfDate]
    by_cases hc : isoOfDate today = "" ∨ ¬ dateShapeOk (isoOfDate today) = true
    · rw [if_pos hc, ← h3e]
    · rw [if_neg hc, ← h3e]

theorem coerceSources_encode {today : CalDate}
    {l : List (String × String × String)} (h : sourcesInv today l) :
    coerceSources today (encodeSources l) = l := by
  unfold coerceSources encodeSources
  simp only [asList]
  rw [List.filter_eq_self.mpr (by
    intro x hx
    rcases List.mem_map.mp hx with ⟨p, _, hp⟩
    rw [← hp])]
  rw [List.map_map]
  rw [show l.map _ = l.map id from List.map_congr_left (by
    intro p hp
    obtain ⟨hp1, hp2, hp3⟩ := h p hp
    exact coerceSource_encode hp1 hp2 hp3)]
  exact List.map_id l

theorem coerceSource_inv (today : CalDate) (s : JValue) :
    pyStrip (coerceSource today s).1 = (coerceSource today s).1 ∧
    pyStrip (coerceSource today s).2.1 = (coerceSource today s).2.1 ∧
    (pyStrip (coerceSource today s).2.2 = (coerceSource today s).2.2 ∧
      dateShapeOk (coerceSource today s).2.2 = true
      ∧ (coerceSource today s).2.2 ≠ ""
      ∨ (coerceSource today s).2.2 = isoOfDate today) := by
  unfold coerceSource
  cases s with
  | obj fs =>
    simp only []
    by_cases hc : pyStrStrip (dictGetD fs "date" (.str "")) = ""
        ∨ ¬ dateShapeOk (pyStrStrip (dictGetD fs "date" (.str ""))) = true
    · rw [if_pos hc]
      exact ⟨pyStrip_idem _, pyStrip_idem _, Or.inr rfl⟩
    · rw [if_neg hc]
      push_neg at hc
      exact ⟨pyStrip_idem _, pyStrip_idem _,
        Or.inl ⟨pyStrip_idem _, by simpa using hc.2, hc.1⟩⟩
  | null => exact ⟨rfl, rfl, Or.inr rfl⟩
  | bool b => cases b <;> exact ⟨rfl, rfl, Or.inr rfl⟩
  | num n =>
    simp only []
    by_cases hb : startsWithChars "http".data (pyStrStrip (JValue.num n)).data
        = true
    · rw [if_pos hb]
      exact ⟨pyStrip_idem _, rfl, Or.inr rfl⟩
    · rw [if_neg hb]
      exact ⟨rfl, pyStrip_idem _, Or.inr rfl⟩
  | str s0 =>
    simp only []
    by_cases hb : startsWithChars "http".data (pyStrStrip (JValue.str s0)).data
        = true
    · rw [if_pos hb]
      exact ⟨pyStrip_idem _, rfl, Or.inr rfl⟩
    · rw [if_neg hb]
      exact ⟨rfl, pyStrip_idem _, Or.inr rfl⟩
  | arr es =>
    simp only []
    by_cases hb : startsWithChars "http".data (pyStrStrip (JValue.arr es)).data
        = true
    · rw [if_pos hb]
      exact ⟨pyStrip_idem _, rfl, Or.inr rfl⟩
    · rw [if_neg hb]
      exact ⟨rfl, pyStrip_idem _, Or.inr rfl⟩

theorem coerceSources_inv (today : CalDate) (v : JValue) :
    sourcesInv today (coerceSources today v) := by
  intro p hp
  unfold coerceSources at hp
  rcases List.mem_map.mp hp with ⟨s, _, hs⟩
  subst hs
  exact coerceSource_inv today s

theorem jWFList_map {α : Type} (f : α → JValue) (l : List α)
    (h : ∀ a ∈ l, jWF (f a) = true) : jWFList (l.map f) = true := by
  induction l with
  | nil => rfl
  | cons a l ih =>
    show (jWF (f a) && jWFList (l.map f)) = true
    simp [h a (List.mem_cons_self a l),
      ih (fun b hb => h b (List.mem_cons_of_mem _ hb))]

theorem jWFList_map_str (ts : List String) :
    jWFList (ts.map JValue.str) = true :=
  jWFList_map _ _ (fun _ _ => rfl)

theorem jWF_encodeNiches (l : List (String × String)) :
    jWF (encodeNiches l) = true :=
  jWFList_map _ _ (fun _ _ => rfl)

theorem jWF_encodeRisks (l : List (String × String)) :
    jWF (encodeRisks l) = true :=
  jWFList_map _ _ (fun _ _ => rfl)

theorem jWF_encodeStrList (l : List String) :
    jWF (encodeStrList l) = true :=
  jWFList_map _ _ (fun _ _ => rfl)

theorem jWF_encodeSources (l : List (String × String × String)) :
    jWF (encodeSources l) = true :=
  jWFList_map _ _ (fun _ _ => rfl)

theorem jWF_encodePlan (l : List (Int × List String)) :
    jWF (encodePlan l) = true := by
  refine jWFList_map _ _ (fun p _ => ?_)
  show (noDupKeys (keysOf [("week", JValue.num p.1),
      ("tasks", JValue.arr (p.2.map JValue.str))])
    && jWFFields [("week", JValue.num p.1),
      ("tasks", JValue.arr (p.2.map JValue.str))]) = true
  rw [Bool.and_eq_true]
  refine ⟨rfl, ?_⟩
  show (jWF (JValue.num p.1) && (jWF (JValue.arr (p.2.map JValue.str))
    && jWFFields [])) = true
  show (true && (jWFList (p.2.map JValue.str) && true)) = true
  simp [jWFList_map_str]

theorem foldl_setdefault_wf (keys : List String) :
    ∀ d : List (String × JValue), (keysOf d).Nodup → jWFFields d = true →
      (keysOf (keys.foldl (fun acc k => dictSetdefault acc k
        (if k = "idea" then .str "" else .arr [])) d)).Nodup ∧
      jWFFields (keys.foldl (fun acc k => dictSetdefault acc k
        (if k = "idea" then .str "" else .arr [])) d) = true := by
  induction keys with
  | nil => intro d h1 h2; exact ⟨h1, h2⟩
  | cons k ks ih =>
    intro d h1 h2
    simp only [List.foldl_cons]
    have hv : jWF (if k = "idea" then JValue.str "" else JValue.arr [])
        = true := by
      split <;> rfl
    obtain ⟨ha, hb⟩ := dictSetdefault_wf h1 h2 hv
    exact ih _ ha hb

theorem runVOutCore_fixpoint {today : CalDate} {fs : List (String × JValue)}
    (h : goodFields today fs) : runVOutCore today (.obj fs) = .ok fs := by
  obtain ⟨⟨sI, hI⟩, ⟨lN, hNinv, hN⟩, ⟨lP, hPinv, hP⟩, ⟨lR, hRinv, hR⟩,
    ⟨lU, hUinv, hU⟩, ⟨lS, hSinv, hS⟩, ⟨lE, hEinv, hE⟩⟩ := h
  have hfold : voKeys.foldl (fun acc k => dictSetdefault acc k
      (if k = "idea" then JValue.str "" else JValue.arr [])) fs = fs := by
    simp only [voKeys, List.foldl_cons, List.foldl_nil]
    rw [@dictSetdefault_present fs "idea" _ (by rw [hI]; rfl)]
    rw [@dictSetdefault_present fs "local_niches" _ (by rw [hN]; rfl)]
    rw [@dictSetdefault_present fs "90_day_plan" _ (by rw [hP]; rfl)]
    rw [@dictSetdefault_present fs "risks" _ (by rw [hR]; rfl)]
    rw [@dictSetdefault_present fs "unit_economics_notes" _ (by rw [hU]; rfl)]
    rw [@dictSetdefault_present fs "sources" _ (by rw [hS]; rfl)]
    rw [@dictSetdefault_present fs "evidence" _ (by rw [hE]; rfl)]
  have eI : dictGetD fs "idea" JValue.null = .str sI := by
    unfold dictGetD
    rw [hI]
    rfl
  have eI2 : coerceIdea (JValue.str sI) = .str sI := rfl
  have eN : dictGetD fs "local_niches" JValue.null = encodeNiches lN := by
    unfold dictGetD
    rw [hN]
    rfl
  have eP : dictGetD fs "90_day_plan" JValue.null = encodePlan lP := by
    unfold dictGetD
    rw [hP]
    rfl
  have eP2 : coercePlan (encodePlan lP) = .ok lP :=
    coercePlanAux_encode lP 1 hPinv
  have eR : dictGetD fs "risks" JValue.null = encodeRisks lR := by
    unfold dictGetD
    rw [hR]
    rfl
  have eU : dictGetD fs "unit_economics_notes" JValue.null
      = encodeStrList lU := by
    unfold dictGetD
    rw [hU]
    rfl
  have eS : dictGetD fs "sources" JValue.null = encodeSources lS := by
    unfold dictGetD
    rw [hS]
    rfl
  have eE : dictGetD fs "evidence" JValue.null = encodeStrList lE := by
    unfold dictGetD
    rw [hE]
    rfl
  simp only [runVOutCore]
  rw [hfold, eI, eI2, dictSet_same hI, eN, coerceNiches_encode hNinv,
    dictSet_same hN, eP, eP2, except_bind_ok, dictSet_same hP, eR,
    coerceRisks_encode hRinv, dictSet_same hR, eU,
    coerceStrList_encode hUinv, dictSet_same hU, eS,
    coerceSources_encode hSinv, dictSet_same hS, eE,
    coerceStrList_encode hEinv, dictSet_same hE]
  rfl

theorem except_bind_eq_ok {α β : Type} {e : Except PyErr α}
    {f : α → Except PyErr β} {b : β} (h : (e >>= f) = .ok b) :
    ∃ a, e = .ok a ∧ f a = .ok b := by
  cases e with
  | error err => exact absurd h (by simp [except_bind_error])
  | ok a => exact ⟨a, rfl, h⟩

theorem jWF_coerceIdea (v : JValue) : jWF (coerceIdea v) = true := rfl

set_option maxHeartbeats 2000000 in
theorem runVOutCore_good {today : CalDate} {v0 : JValue}
    {fs : List (String × JValue)} (hwf : jWF v0 = true)
    (h : runVOutCore today v0 = .ok fs) :
    jWF (.obj fs) = true ∧ goodFields today fs := by
  cases v0 with
  | null =>
    simp only [runVOutCore] at h
    exact absurd h (by simp)
  | bool b =>
    simp only [runVOutCore] at h
    exact absurd h (by simp)
  | num n =>
    simp only [runVOutCore] at h
    exact absurd h (by simp)
  | str s =>
    simp only [runVOutCore] at h
    exact absurd h (by simp)
  | arr es =>
    simp only [runVOutCore] at h
    exact absurd h (by simp)
  | obj fs0 =>
    have hw0 : (noDupKeys (keysOf fs0) && jWFFields fs0) = true := hwf
    rw [Bool.and_eq_true] at hw0
    have hFA := foldl_setdefault_wf voKeys fs0 ((noDupKeys_iff _).mp hw0.1) hw0.2
    simp only [runVOutCore] at h
    obtain ⟨plan, hpl, hres⟩ := except_bind_eq_ok h
    have hres' : Except.ok _ = Except.ok fs := hres
    injection hres' with hfs
    subst hfs
    constructor
    · show (noDupKeys (keysOf _) && jWFFields _) = true
      rw [Bool.and_eq_true]
      constructor
      · exact (noDupKeys_iff _).mpr (nodup_keysOf_dictSet (nodup_keysOf_dictSet
          (nodup_keysOf_dictSet (nodup_keysOf_dictSet (nodup_keysOf_dictSet
          (nodup_keysOf_dictSet (nodup_keysOf_dictSet hFA.1)))))))
      · exact jWFFields_dictSet (jWFFields_dictSet (jWFFields_dictSet
          (jWFFields_dictSet (jWFFields_dictSet (jWFFields_dictSet
          (jWFFields_dictSet hFA.2 (jWF_coerceIdea _)) (jWF_encodeNiches _))
          (jWF_encodePlan _)) (jWF_encodeRisks _)) (jWF_encodeStrList _))
          (jWF_encodeSources _)) (jWF_encodeStrList _)
    · refine ⟨?_, ?_, ?_, ?_, ?_, ?_, ?_⟩
      · rw [dictFind_set_other _ (by decide), dictFind_set_other _ (by decide),
          dictFind_set_other _ (by decide), dictFind_set_other _ (by decide),
          dictFind_set_other _ (by decide), dictFind_set_other _ (by decide),
          dictFind_set_self]
        exact ⟨_, rfl⟩
      · rw [dictFind_set_other _ (by decide), dictFind_set_other _ (by decide),
          dictFind_set_other _ (by decide), dictFind_set_other _ (by decide),
          dictFind_set_other _ (by decide), dictFind_set_self]
        exact ⟨_, coerceNiches_inv _, rfl⟩
      · rw [dictFind_set_other _ (by decide), dictFind_set_other _ (by decide),
          dictFind_set_other _ (by decide), dictFind_set_other _ (by decide),
          dictFind_set_self]
        exact ⟨plan, coercePlanAux_inv _ 1 plan hpl, rfl⟩
      · rw [dictFind_set_other _ (by decide), dictFind_set_other _ (by decide),
          dictFind_set_other _ (by decide), dictFind_set_self]
        exact ⟨_, coerceRisks_inv _, rfl⟩
      · rw [dictFind_set_other _ (by decide), dictFind_set_other _ (by decide),
          dictFind_set_self]
        exact ⟨_, coerceStrList_inv _, rfl⟩
      · rw [dictFind_set_other _ (by decide), dictFind_set_self]
        exact ⟨_, coerceSources_inv today _, rfl⟩
      · rw [dictFind_set_self]
        exact ⟨_, coerceStrList_inv _, rfl⟩

/-- C9: the output repair stage is idempotent at a fixed current date —
whenever `ValidatorOutAgent.run` returns a serialized answer, running it
again on that answer returns the very same text: every field coercion is
a fixpoint on already-coerced output. -/
theorem validator_out_idempotent (today : CalDate) (s t : String)
    (h : runVOut today s = .ok t) : runVOut today t = .ok t := by
  unfold runVOut at h
  cases hc : runVOutCore today ((jsonLoads s).getD (.obj [])) with
  | error e =>
    rw [hc] at h
    exact absurd h (by simp [Except.map])
  | ok fs =>
    rw [hc] at h
    have h' : Except.ok (jsonDumps (.obj fs)) = .ok t := h
    injection h' with ht
    have hwf0 : jWF ((jsonLoads s).getD (.obj [])) = true := by
      cases hj : jsonLoads s with
      | none => rfl
      | some v => exact jsonLoads_wf hj
    obtain ⟨hwf, hgood⟩ := runVOutCore_good hwf0 hc
    subst ht
    unfold runVOut
    rw [jsonLoads_dumps hwf,
      show ((some (JValue.obj fs)).getD (.obj [])) = JValue.obj fs from rfl,
      runVOutCore_fixpoint hgood]
    rfl

/-- Witness for C9: the concrete run on `"{}"` (whose output is the
fully-defaulted payload) is reproduced exactly by a second run. -/
theorem validator_out_idempotent_witness :
    runVOut ⟨2026, 10, 12⟩
        ((runVOut ⟨2026, 10, 12⟩ "\x7b\x7d").toOption.getD "")
      = .ok ((runVOut ⟨2026, 10, 12⟩ "\x7b\x7d").toOption.getD "") :=
  validator_out_idempotent ⟨2026, 10, 12⟩ "\x7b\x7d"
    ((runVOut ⟨2026, 10, 12⟩ "\x7b\x7d").toOption.getD "") (by rfl)

end StartupAgents
